import Mathlib

/-!
Verification of the ai-code-reviewer diff-to-review pipeline.

The development shallowly embeds the TypeScript sources of the repository:
`src/review/engine.ts` (the review aggregator), `src/analysis/git.ts` (the
unified-diff parser), the file filter, and `src/providers/base.ts` (the AI
response normalizer).  TypeScript runtime values are modelled as follows:
strings stay strings, JS `number` line counters become `Int`/`Nat`,
JS `undefined` becomes `Option.none`, and a JS `NaN` produced by arithmetic
on `undefined` is modelled by `Option.none` on the result.  Fields typed
with string-literal unions in TypeScript are modelled as `String`, since
the values cross `JSON.parse` boundaries unchecked at runtime.
-/

namespace AICodeReview

/-! ### Computable string primitives

The JS string operations the sources use (`startsWith`, `substring`,
`split`, `trim`, `toLowerCase`) are modelled by list-based functions on
`String.data` so that every definition evaluates by kernel reduction. -/

/-- JS `s.startsWith(p)`. -/
def strStartsWith (s p : String) : Bool :=
  p.data.isPrefixOf s.data

/-- JS `s.substring(n)` for a character offset `n`. -/
def strDrop (s : String) (n : Nat) : String :=
  String.mk (s.data.drop n)

/-- Split a character list on a separator character; JS
`s.split(sep)` semantics for a one-character separator. -/
def splitListOnChar (c : Char) : List Char → List (List Char)
  | [] => [[]]
  | x :: xs =>
    match splitListOnChar c xs with
    | [] => [[]]
    | g :: gs => if x = c then [] :: g :: gs else (x :: g) :: gs

/-- JS `s.split(c)` for a one-character separator. -/
def splitOnChar (c : Char) (s : String) : List String :=
  (splitListOnChar c s.data).map String.mk

/-- Whitespace characters stripped by `trim`. -/
def isTrimWs (c : Char) : Bool :=
  c = ' ' || c = '\t' || c = '\n' || c = '\r'

/-- JS `s.trim()`. -/
def strTrim (s : String) : String :=
  String.mk (((s.data.dropWhile isTrimWs).reverse.dropWhile isTrimWs).reverse)

/-- Lower-casing of one ASCII character. -/
def lowerChar (c : Char) : Char :=
  if 65 ≤ c.toNat ∧ c.toNat ≤ 90 then Char.ofNat (c.toNat + 32) else c

/-- JS `s.toLowerCase()` (ASCII range, which covers every value the
sources lower-case). -/
def strToLower (s : String) : String :=
  String.mk (s.data.map lowerChar)

/-- One review comment, as in the repository's `ReviewComment` type.
`severity` ranges over "info" | "warning" | "error" and `category` over the
seven known category strings, but both are kept as `String` because the
values originate from unchecked JSON and are validated only later. -/
structure ReviewComment where
  file : String
  line : Int
  message : String
  severity : String
  category : String
  suggestion : Option String := none
deriving Repr, DecidableEq

/-- The engine-relevant fields of `ReviewConfig`.  The numeric tuning fields
(`model`, `maxTokens`, `temperature`) are never read by the reviewed logic
and are omitted.  Optional TS fields are `Option`. -/
structure ReviewConfig where
  aiProvider : String := "openai"
  codingStandardsPath : Option String := none
  reviewPromptPath : Option String := none
  ignorePatterns : List String := []
  severityThreshold : Option String := none
  autoApprove : Bool := false
  requireApprovalFor : Option (List String) := none
deriving Repr, DecidableEq

/-- A partial configuration as produced by reading a config file
(`Partial<ReviewConfig>` in `src/config/loader.ts`): every field may be
absent. -/
structure PartialReviewConfig where
  aiProvider : Option String := none
  codingStandardsPath : Option String := none
  reviewPromptPath : Option String := none
  ignorePatterns : Option (List String) := none
  severityThreshold : Option String := none
  autoApprove : Option Bool := none
  requireApprovalFor : Option (List String) := none
deriving Repr, DecidableEq

/-- JS `a || d` for an optional string `a`: both `undefined` and the empty
string are falsy. -/
def jsOrString (o : Option String) (d : String) : String :=
  match o with
  | some s => if s = "" then d else s
  | none => d

/-- `ConfigLoader.mergeWithDefaults` (src/config/loader.ts lines 60-73),
restricted to the embedded fields.  `config.ignorePatterns || []` only
replaces `undefined` (an empty array is truthy in JS). -/
def mergeWithDefaults (c : PartialReviewConfig) : ReviewConfig where
  aiProvider := jsOrString c.aiProvider "openai"
  codingStandardsPath := c.codingStandardsPath
  reviewPromptPath := c.reviewPromptPath
  ignorePatterns := c.ignorePatterns.getD []
  severityThreshold := some (jsOrString c.severityThreshold "medium")
  autoApprove := c.autoApprove.getD false
  requireApprovalFor := some (c.requireApprovalFor.getD ["error"])

/-- The `severityOrder` lookup object of `ReviewEngine.meetsSeverityThreshold`
(engine.ts line 159); an unknown key yields JS `undefined`, i.e. `none`. -/
def severityOrder (s : String) : Option Nat :=
  if s = "info" then some 1
  else if s = "warning" then some 2
  else if s = "error" then some 3
  else none

/-- The `thresholdOrder` lookup object of `ReviewEngine.meetsSeverityThreshold`
(engine.ts line 160). -/
def thresholdOrder (t : String) : Option Nat :=
  if t = "low" then some 1
  else if t = "medium" then some 2
  else if t = "high" then some 3
  else none

/-- JS `x >= y` where either side may be `undefined`: any comparison with
`undefined` is false. -/
def jsGE : Option Nat → Option Nat → Bool
  | some a, some b => decide (b ≤ a)
  | _, _ => false

/-- `ReviewEngine.meetsSeverityThreshold` (engine.ts lines 158-164):
`severityOrder[comment.severity] >= thresholdOrder[this.config.severityThreshold || "low"]`. -/
def meetsSeverityThreshold (cfg : ReviewConfig) (c : ReviewComment) : Bool :=
  let threshold := jsOrString cfg.severityThreshold "low"
  jsGE (severityOrder c.severity) (thresholdOrder threshold)

/-- `ReviewEngine.isValidComment` (engine.ts lines 140-156): the JS
truthiness chain `message && severity && includes(severity) && category &&
includes(category)`. -/
def isValidComment (c : ReviewComment) : Bool :=
  c.message ≠ "" && c.severity ≠ "" &&
    ["info", "warning", "error"].contains c.severity &&
    c.category ≠ "" &&
    ["code-quality", "security", "performance", "maintainability",
      "style", "testing", "documentation"].contains c.category

/-- `ReviewEngine.validateAndFilterComments` (engine.ts lines 127-138):
validity filter, then severity-threshold filter, then defaulting an empty
`file` field (`comment.file || filePath`) to the change's path. -/
def validateAndFilterComments (cfg : ReviewConfig) (comments : List ReviewComment)
    (filePath : String) : List ReviewComment :=
  ((comments.filter isValidComment).filter (meetsSeverityThreshold cfg)).map
    (fun c => { c with file := if c.file = "" then filePath else c.file })

/-- The `weights` lookup object of `ReviewEngine.calculateScore`
(engine.ts line 204); an unknown severity key yields `undefined`. -/
def weights (s : String) : Option Int :=
  if s = "error" then some (-10)
  else if s = "warning" then some (-5)
  else if s = "info" then some (-1)
  else none

/-- `ReviewEngine.calculateScore` (engine.ts lines 201-211).  The JS
`reduce` sums `weights[severity]` starting at 0; adding `undefined` poisons
the sum to `NaN`, modelled by `none`, and the final
`Math.max(0, Math.min(100, 100 + penalty))` propagates `NaN`. -/
def calculateScore (comments : List ReviewComment) : Option Int :=
  if comments.length = 0 then some 100
  else
    (comments.foldl
        (fun acc c =>
          match acc, weights c.severity with
          | some s, some w => some (s + w)
          | _, _ => none)
        (some 0)).map
      (fun penalty => max 0 (min 100 (100 + penalty)))

/-- `ReviewEngine.shouldApprove` (engine.ts lines 213-223).  The optional
chain `this.config.requireApprovalFor?.includes(...)` is falsy when the
list is absent. -/
def shouldApprove (cfg : ReviewConfig) (comments : List ReviewComment) : Bool :=
  if cfg.autoApprove = true ∧ comments.length = 0 then true
  else
    decide
      ((comments.filter
          (fun c => (cfg.requireApprovalFor.getD []).contains c.severity)).length = 0)

/-- The seven category keys in the enumeration order of
`ReviewEngine.categorizeComments` (engine.ts lines 184-192). -/
def initialCategories : List (String × Nat) :=
  [("code-quality", 0), ("security", 0), ("performance", 0),
    ("maintainability", 0), ("style", 0), ("testing", 0), ("documentation", 0)]

/-- One step of `categories[comment.category] = (categories[...] || 0) + 1`:
increment an existing key in place, or append a new key (JS object key
insertion order). -/
def bumpCategory : List (String × Nat) → String → List (String × Nat)
  | [], cat => [(cat, 1)]
  | (k, n) :: rest, cat =>
    if k = cat then (k, n + 1) :: rest else (k, n) :: bumpCategory rest cat

/-- `ReviewEngine.categorizeComments` (engine.ts lines 181-199). -/
def categorizeComments (comments : List ReviewComment) : List (String × Nat) :=
  comments.foldl (fun acc c => bumpCategory acc c.category) initialCategories

/-- Display of the score number in the summary template; JS prints `NaN`
for a poisoned score. -/
def scoreText : Option Int → String
  | some n => toString n
  | none => "NaN"

/-- Stable insertion of one entry into a count-descending list (ties keep
the earlier entry first), modelling the stable `Array.prototype.sort` with
comparator `(a, b) => b - a`. -/
def insertByCountDesc (x : String × Nat) : List (String × Nat) → List (String × Nat)
  | [] => [x]
  | y :: ys => if y.2 < x.2 then x :: y :: ys else y :: insertByCountDesc x ys

/-- Stable descending sort by count for the top-categories computation. -/
def sortByCountDesc (l : List (String × Nat)) : List (String × Nat) :=
  l.foldr insertByCountDesc []

/-- `ReviewEngine.generateSummary` (engine.ts lines 225-259). -/
def generateSummary (comments : List ReviewComment) (score : Option Int) : String :=
  if comments.length = 0 then "✅ No issues found. Code looks good!"
  else
    let errorCount := (comments.filter (fun c => c.severity = "error")).length
    let warningCount := (comments.filter (fun c => c.severity = "warning")).length
    let infoCount := (comments.filter (fun c => c.severity = "info")).length
    let s0 := "🤖 AI Code Review Summary (Score: " ++ scoreText score ++ "/100)\n\n"
    let s1 := if 0 < errorCount then s0 ++ "🚨 " ++ toString errorCount ++ " error(s) found\n" else s0
    let s2 := if 0 < warningCount then s1 ++ "⚠️ " ++ toString warningCount ++ " warning(s) found\n" else s1
    let s3 := if 0 < infoCount then s2 ++ "ℹ️ " ++ toString infoCount ++ " info item(s) found\n" else s2
    let topCategories :=
      ((sortByCountDesc ((categorizeComments comments).filter
            (fun e => 0 < e.2))).take 3).map (fun e => e.1)
    if 0 < topCategories.length then
      s3 ++ "\nMain areas of concern: " ++ String.intercalate ", " topCategories
    else s3

/-- The final result of one review run (`ReviewResult`).  `score` is
`Option Int` with `none` standing for `NaN`; `categories` is the JS record
as an ordered association list. -/
structure ReviewResult where
  comments : List ReviewComment
  summary : String
  approved : Bool
  score : Option Int
  categories : List (String × Nat)
deriving Repr, DecidableEq

/-- `ReviewEngine.buildResult` (engine.ts lines 166-179). -/
def buildResult (cfg : ReviewConfig) (comments : List ReviewComment) : ReviewResult :=
  let categories := categorizeComments comments
  let score := calculateScore comments
  let approved := shouldApprove cfg comments
  let summary := generateSummary comments score
  { comments, summary, approved, score, categories }

/-- `ReviewEngine.createEmptyResult` (engine.ts lines 261-277). -/
def createEmptyResult (message : String) : ReviewResult where
  comments := []
  summary := message
  approved := true
  score := some 100
  categories := initialCategories

/-! ### Diff parser (`GitAnalyzer.parseDiff`, src/analysis/git.ts lines 37-102) -/

/-- One hunk of a unified diff (`GitHunk`). -/
structure GitHunk where
  oldStart : Nat
  oldLines : Nat
  newStart : Nat
  newLines : Nat
  lines : List String
deriving Repr, DecidableEq

/-- One changed file (`CodeChange`). -/
structure CodeChange where
  file : String
  additions : List String
  deletions : List String
  context : List String
  hunks : List GitHunk
deriving Repr, DecidableEq

/-- Maximal leading run of ASCII digits (JS `\d+` greedy matching on a
digit run never backtracks into the run). -/
def takeDigits (l : List Char) : List Char × List Char :=
  (l.takeWhile Char.isDigit, l.dropWhile Char.isDigit)

/-- Numeric value of a digit string, as JS `parseInt` computes it on an
all-digit input. -/
def digitsVal (l : List Char) : Nat :=
  l.foldl (fun n c => n * 10 + (c.toNat - 48)) 0

/-- Attempt to match the regex `@@ -(\d+)(?:,(\d+))? \+(\d+)(?:,(\d+))? @@`
at the start of `l`; returns the four captured numbers with the omitted
optional groups replaced by 1 (`parseInt(hunkMatch[i] || '1')`). -/
def matchHunkHeaderAt (l : List Char) : Option (Nat × Nat × Nat × Nat) :=
  match l with
  | '@' :: '@' :: ' ' :: '-' :: r0 =>
    let (d1, r1) := takeDigits r0
    if d1 = [] then none
    else
      let (o2, r2) : Option (List Char) × List Char :=
        match r1 with
        | ',' :: r =>
          let (d, r') := takeDigits r
          if d = [] then (none, r1) else (some d, r')
        | _ => (none, r1)
      match r2 with
      | ' ' :: '+' :: r3 =>
        let (d3, r4) := takeDigits r3
        if d3 = [] then none
        else
          let (o4, r5) : Option (List Char) × List Char :=
            match r4 with
            | ',' :: r =>
              let (d, r') := takeDigits r
              if d = [] then (none, r4) else (some d, r')
            | _ => (none, r4)
          match r5 with
          | ' ' :: '@' :: '@' :: _ =>
            some (digitsVal d1, (o2.map digitsVal).getD 1,
              digitsVal d3, (o4.map digitsVal).getD 1)
          | _ => none
      | _ => none
  | _ => none

/-- Unanchored regex search: try the match at every start position,
leftmost first, as `String.prototype.match` does. -/
def searchHunkHeader : List Char → Option (Nat × Nat × Nat × Nat)
  | [] => none
  | c :: rest =>
    match matchHunkHeaderAt (c :: rest) with
    | some r => some r
    | none => searchHunkHeader rest

/-- The hunk-header regex of `parseDiff` (git.ts line 68) applied to one
line. -/
def parseHunkHeader (line : String) : Option (Nat × Nat × Nat × Nat) :=
  searchHunkHeader line.toList

/-- Scanner state for the per-file loop of `parseDiff` (git.ts lines
57-90).  In JS, `change.hunks.push(currentHunk)` stores a reference that
later `currentHunk.lines.push(...)` mutations still affect, and the same
object can be pushed several times.  All pushes of one current hunk are
consecutive, so the state keeps the already-frozen hunks in `closed`, the
live hunk in `cur`, and in `curPushes` how many times `cur` has already
been pushed into `change.hunks`. -/
structure DiffScanState where
  additions : List String
  deletions : List String
  context : List String
  closed : List GitHunk
  cur : Option GitHunk
  curPushes : Nat
  inHunk : Bool
deriving Repr, DecidableEq

/-- The initial scanner state for one file block. -/
def initDiffScanState : DiffScanState :=
  { additions := [], deletions := [], context := [],
    closed := [], cur := none, curPushes := 0, inHunk := false }

/-- One iteration of the per-file line loop of `parseDiff` (git.ts lines
60-90). -/
def scanDiffLine (st : DiffScanState) (line : String) : DiffScanState :=
  if strStartsWith line "@@" then
    let pushes := match st.cur with | some _ => st.curPushes + 1 | none => st.curPushes
    match parseHunkHeader line with
    | some (oldStart, oldLines, newStart, newLines) =>
      let closed := st.closed ++
        (match st.cur with
          | some h => List.replicate pushes h
          | none => [])
      { st with
        closed := closed
        cur := some { oldStart, oldLines, newStart, newLines, lines := [] }
        curPushes := 0
        inHunk := true }
    | none => { st with curPushes := pushes }
  else if st.inHunk then
    match st.cur with
    | some h =>
      let st := { st with cur := some { h with lines := h.lines ++ [line] } }
      if strStartsWith line "+" && !strStartsWith line "+++" then
        { st with additions := st.additions ++ [strDrop line 1] }
      else if strStartsWith line "-" && !strStartsWith line "---" then
        { st with deletions := st.deletions ++ [strDrop line 1] }
      else if strStartsWith line " " then
        { st with context := st.context ++ [strDrop line 1] }
      else st
    | none => st
  else st

/-- Materialize the scanner state into a `CodeChange`: the closed hunks,
then the final `if (currentHunk) change.hunks.push(currentHunk)` together
with the earlier aliased pushes of the same object (git.ts lines 92-94). -/
def finishDiffScan (file : String) (st : DiffScanState) : CodeChange :=
  { file
    additions := st.additions
    deletions := st.deletions
    context := st.context
    hunks := st.closed ++
      (match st.cur with
        | some h => List.replicate (st.curPushes + 1) h
        | none => []) }

/-- The per-file part of `GitAnalyzer.parseDiff` (git.ts lines 49-94):
`blockLines` are the lines of one `diff --git` block after the header line
that matched `a/(.+) b/(.+)`. -/
def parseFileBlock (file : String) (blockLines : List String) : CodeChange :=
  finishDiffScan file (blockLines.foldl scanDiffLine initDiffScanState)

/-! ### File filter (`FileFilter`, src/unnamed/part_002) -/

/-- Fuel-indexed glob matching of one path segment: literal characters,
`*` (any run of characters, including a leading dot since the source
passes `dot: true`), and `?` (any one character).  Every recursive call
shrinks pattern or text, so `p.length + s.length + 1` fuel is exact. -/
def globSegMatchFuel : Nat → List Char → List Char → Bool
  | 0, _, _ => false
  | fuel + 1, p, s =>
    match p, s with
    | [], [] => true
    | [], _ :: _ => false
    | '*' :: ps, s' =>
      globSegMatchFuel fuel ps s' ||
        (match s' with
          | [] => false
          | _ :: rest => globSegMatchFuel fuel ('*' :: ps) rest)
    | _ :: _, [] => false
    | '?' :: ps, _ :: ss => globSegMatchFuel fuel ps ss
    | pc :: ps, c :: ss => pc = c && globSegMatchFuel fuel ps ss

/-- Glob matching of one path segment, with sufficient fuel. -/
def globSegMatch (p s : List Char) : Bool :=
  globSegMatchFuel (p.length + s.length + 1) p s

/-- Fuel-indexed glob matching of slash-separated segment lists; a `**`
pattern segment matches zero or more path segments. -/
def globSegsMatchFuel : Nat → List (List Char) → List (List Char) → Bool
  | 0, _, _ => false
  | fuel + 1, ps0, fs =>
    match ps0, fs with
    | [], [] => true
    | [], _ :: _ => false
    | p :: ps, fs =>
      if p = ['*', '*'] then
        globSegsMatchFuel fuel ps fs ||
          (match fs with
            | [] => false
            | _ :: rest => globSegsMatchFuel fuel (p :: ps) rest)
      else
        match fs with
        | [] => false
        | f :: rest => globSegMatch p f && globSegsMatchFuel fuel ps rest

/-- Glob matching of segment lists, with sufficient fuel. -/
def globSegsMatch (ps fs : List (List Char)) : Bool :=
  globSegsMatchFuel (ps.length + fs.length + 1) ps fs

/-- Model of the external `minimatch(filePath, pattern, { dot: true })`
call: both strings are split on `/` and matched segment-wise.  The model
covers the glob constructs the filter uses (literal segments, `*`, `?`,
`**`); a pattern without `/` therefore only matches a path without `/`,
as in minimatch without `matchBase`. -/
def minimatchDot (filePath pattern : String) : Bool :=
  globSegsMatch (splitListOnChar '/' pattern.data)
    (splitListOnChar '/' filePath.data)

/-- Index of the last `.` in a character list, if any. -/
def findLastDotIdx (cs : List Char) : Option Nat :=
  match cs.reverse.findIdx? (fun c => c = '.') with
  | some j => some (cs.length - 1 - j)
  | none => none

/-- Model of Node's `path.extname`: the suffix of the basename from its
last `.`, or `""` when the basename has no dot or only a leading dot. -/
def extname (p : String) : String :=
  let base := (splitOnChar '/' p).getLastD ""
  let cs := base.data
  match findLastDotIdx cs with
  | some i => if i = 0 then "" else String.mk (cs.drop i)
  | none => ""

/-- `FileFilter.getDefaultIgnorePatterns` (part_002 lines 55-84). -/
def getDefaultIgnorePatterns : List String :=
  ["node_modules/**", ".git/**", "dist/**", "build/**", "coverage/**",
    ".nyc_output/**", "vendor/**", "tmp/**", "temp/**", "*.min.js",
    "*.min.css", "*.map", "package-lock.json", "yarn.lock",
    "pnpm-lock.yaml", ".env*", "*.log", ".DS_Store", "Thumbs.db",
    "*.pyc", "__pycache__/**", ".pytest_cache/**", ".tox/**", "venv/**",
    "env/**", ".venv/**"]

/-- The `FileFilter` instance state: ignore patterns (defaults merged with
the user-supplied ones by the constructor) and include patterns. -/
structure FileFilter where
  ignorePatterns : List String
  includePatterns : List String
deriving Repr, DecidableEq

/-- The `FileFilter` constructor (part_002 lines 8-14). -/
def FileFilter.make (ignorePatterns : List String := [])
    (includePatterns : List String := []) : FileFilter :=
  { ignorePatterns := getDefaultIgnorePatterns ++ ignorePatterns, includePatterns }

/-- `FileFilter.isIgnored` (part_002 lines 28-32). -/
def FileFilter.isIgnored (f : FileFilter) (filePath : String) : Bool :=
  f.ignorePatterns.any (fun pat => minimatchDot filePath pat)

/-- `FileFilter.isIncluded` (part_002 lines 34-38). -/
def FileFilter.isIncluded (f : FileFilter) (filePath : String) : Bool :=
  f.includePatterns.any (fun pat => minimatchDot filePath pat)

/-- The fixed extension allow-list of `FileFilter.isReviewableFile`
(part_002 lines 42-50). -/
def reviewableExtensions : List String :=
  [".js", ".jsx", ".ts", ".tsx", ".py", ".java", ".cpp", ".c", ".h",
    ".cs", ".go", ".rs", ".php", ".rb", ".swift", ".kt", ".scala",
    ".sql", ".sh", ".bash", ".json", ".yaml", ".yml", ".md", ".mdx"]

/-- `FileFilter.isReviewableFile` (part_002 lines 40-53). -/
def isReviewableFile (filePath : String) : Bool :=
  reviewableExtensions.contains (strToLower (extname filePath))

/-- `FileFilter.shouldReview` (part_002 lines 16-26): reject ignored paths,
then use the include list when non-empty, otherwise the extension
allow-list. -/
def FileFilter.shouldReview (f : FileFilter) (filePath : String) : Bool :=
  if f.isIgnored filePath then false
  else if 0 < f.includePatterns.length then f.isIncluded filePath
  else isReviewableFile filePath

/-! ### Review orchestration (`ReviewEngine.reviewChanges`, engine.ts lines 22-72) -/

/-- The synthetic comment pushed in the per-file `catch` block of
`reviewChanges` (engine.ts lines 52-60) when the provider call for a file
fails with error text `msg`. -/
def syntheticFailureComment (file msg : String) : ReviewComment :=
  { file
    line := 1
    message := "Failed to review file: " ++ msg
    severity := "warning"
    category := "code-quality"
    suggestion := none }

/-- `ReviewEngine.reviewChanges` (engine.ts lines 22-72), with the git diff
already parsed into `changes` and the AI provider abstracted as a function
from a change to either a comment list or an error message.  The second
result component records the files for which the provider was invoked, so
that "the provider is never called" is expressible.  Prompt assembly does
not influence the result model and is omitted. -/
def reviewChanges (cfg : ReviewConfig)
    (provider : CodeChange → Except String (List ReviewComment))
    (changes : List CodeChange) : ReviewResult × List String :=
  let fileFilter := FileFilter.make cfg.ignorePatterns []
  let reviewableChanges := changes.filter (fun ch => fileFilter.shouldReview ch.file)
  if reviewableChanges.length = 0 then
    (createEmptyResult "No reviewable changes found", [])
  else
    let stepped := reviewableChanges.foldl
      (fun acc change =>
        match provider change with
        | .ok comments =>
          (acc.1 ++ validateAndFilterComments cfg comments change.file,
            acc.2 ++ [change.file])
        | .error e =>
          (acc.1 ++ [syntheticFailureComment change.file e],
            acc.2 ++ [change.file]))
      ([], [])
    (buildResult cfg stepped.1, stepped.2)

/-! ### JSON model

The normalizer in `src/providers/base.ts` delegates to the platform
`JSON.parse`.  The model below implements the JSON grammar over `List Char`
(values: null, booleans, integer numerals, strings with the standard
escapes, arrays, objects, with inter-token whitespace); `none` stands for
the `SyntaxError` that `JSON.parse` throws.  The numeric grammar is
restricted to integers, which covers every value the pipeline produces. -/

/-- JSON values.  Numbers are integers in this model. -/
inductive Json where
  | null
  | bool (b : Bool)
  | num (n : Int)
  | str (s : String)
  | arr (elems : List Json)
  | obj (fields : List (String × Json))
deriving Repr

/-- Canonical escaping of one character inside a JSON string literal:
quote and backslash get a backslash escape, control characters a `\u00XX`
escape, everything else stands for itself. -/
def escapeCharJson (c : Char) : List Char :=
  if c = '"' then ['\\', '"']
  else if c = '\\' then ['\\', '\\']
  else if c.toNat < 32 then
    '\\' :: 'u' :: '0' :: '0' ::
      nibbleChar (c.toNat / 16) :: [nibbleChar (c.toNat % 16)]
  else [c]
where
  /-- Lower-case hex digit for a value below 16. -/
  nibbleChar (k : Nat) : Char :=
    if k < 10 then Char.ofNat (48 + k) else Char.ofNat (87 + k)

/-- Escape a whole character list. -/
def escapeChars (cs : List Char) : List Char :=
  cs.foldr (fun c acc => escapeCharJson c ++ acc) []

/-- Fuel-indexed decimal digit printing, most significant digit first;
`n + 1` fuel is always sufficient since `n / 10 < n` for `10 ≤ n`. -/
def natDigitsFuel : Nat → Nat → List Char
  | 0, _ => []
  | fuel + 1, n =>
    if n < 10 then [Char.ofNat (48 + n)]
    else natDigitsFuel fuel (n / 10) ++ [Char.ofNat (48 + n % 10)]

/-- Decimal digit characters of `n`, most significant first. -/
def natDigits (n : Nat) : List Char :=
  natDigitsFuel (n + 1) n

/-- Decimal representation of an integer, as a character list. -/
def printIntChars (n : Int) : List Char :=
  if n < 0 then '-' :: natDigits n.natAbs else natDigits n.toNat

mutual

/-- Canonical printing of a JSON value (no inter-token whitespace). -/
def printJsonChars : Json → List Char
  | .null => "null".toList
  | .bool true => "true".toList
  | .bool false => "false".toList
  | .num n => printIntChars n
  | .str s => '"' :: (escapeChars s.toList ++ ['"'])
  | .arr es => '[' :: (printElemsChars es ++ [']'])
  | .obj fs => '\x7b' :: (printFieldsChars fs ++ ['\x7d'])

/-- Comma-separated printing of array elements. -/
def printElemsChars : List Json → List Char
  | [] => []
  | [v] => printJsonChars v
  | v :: w :: rest => printJsonChars v ++ ',' :: printElemsChars (w :: rest)

/-- Comma-separated printing of object fields. -/
def printFieldsChars : List (String × Json) → List Char
  | [] => []
  | [(k, v)] => '"' :: (escapeChars k.toList ++ '"' :: ':' :: printJsonChars v)
  | (k, v) :: f :: rest =>
    '"' :: (escapeChars k.toList ++ '"' :: ':' :: printJsonChars v) ++
      ',' :: printFieldsChars (f :: rest)

end

/-- JSON whitespace characters. -/
def isJsonWs (c : Char) : Bool :=
  c = ' ' || c = '\t' || c = '\n' || c = '\r'

/-- Drop leading JSON whitespace. -/
def skipWs (cs : List Char) : List Char :=
  cs.dropWhile isJsonWs

/-- Value of a hex digit character, upper or lower case. -/
def hexVal (c : Char) : Option Nat :=
  if c.isDigit then some (c.toNat - 48)
  else if 'a' ≤ c ∧ c ≤ 'f' then some (c.toNat - 87)
  else if 'A' ≤ c ∧ c ≤ 'F' then some (c.toNat - 55)
  else none

/-- Translation of a single-character JSON string escape. -/
def escapeTranslate (c : Char) : Option Char :=
  if c = '"' then some '"'
  else if c = '\\' then some '\\'
  else if c = '/' then some '/'
  else if c = 'b' then some (Char.ofNat 8)
  else if c = 'f' then some (Char.ofNat 12)
  else if c = 'n' then some '\n'
  else if c = 'r' then some '\r'
  else if c = 't' then some '\t'
  else none

/-- Parse the body of a JSON string literal after the opening quote, up to
and including the closing quote; raw control characters are rejected as
`JSON.parse` does. -/
def parseStringBody : List Char → Option (List Char × List Char)
  | [] => none
  | c :: rest =>
    if c = '"' then some ([], rest)
    else if c = '\\' then
      match rest with
      | [] => none
      | e :: rest2 =>
        if e = 'u' then
          match rest2 with
          | h1 :: h2 :: h3 :: h4 :: rest3 =>
            match hexVal h1, hexVal h2, hexVal h3, hexVal h4 with
            | some a, some b, some hc, some d =>
              (parseStringBody rest3).map
                (fun p => (Char.ofNat (((a * 16 + b) * 16 + hc) * 16 + d) :: p.1, p.2))
            | _, _, _, _ => none
          | _ => none
        else
          match escapeTranslate e with
          | some ec => (parseStringBody rest2).map (fun p => (ec :: p.1, p.2))
          | none => none
    else if c.toNat < 32 then none
    else (parseStringBody rest).map (fun p => (c :: p.1, p.2))

/-- Whether a digit run is a well-formed JSON integer part: non-empty and
without a redundant leading zero. -/
def validDigitRun (d : List Char) : Bool :=
  match d with
  | [] => false
  | [_] => true
  | c :: _ :: _ => c != '0'

/-- Parse an integer numeral (optional minus, then digits, no leading
zeros), as the JSON number grammar restricted to integers. -/
def parseNumberAt (cs : List Char) : Option (Int × List Char) :=
  match cs with
  | [] => none
  | c :: rest =>
    if c = '-' then
      let (d, r) := takeDigits rest
      if validDigitRun d then some (-(digitsVal d : Int), r) else none
    else
      let (d, r) := takeDigits (c :: rest)
      if validDigitRun d then some ((digitsVal d : Int), r) else none

mutual

/-- Fuel-indexed JSON value parsing. -/
def parseJsonValue : Nat → List Char → Option (Json × List Char)
  | 0, _ => none
  | fuel + 1, cs =>
    let t := skipWs cs
    if "null".toList.isPrefixOf t then some (.null, t.drop 4)
    else if "true".toList.isPrefixOf t then some (.bool true, t.drop 4)
    else if "false".toList.isPrefixOf t then some (.bool false, t.drop 5)
    else
      match t with
      | [] => none
      | c :: rest =>
        if c = '"' then (parseStringBody rest).map (fun p => (.str (String.mk p.1), p.2))
        else if c = '[' then (parseJsonElems fuel rest).map (fun p => (.arr p.1, p.2))
        else if c = '\x7b' then (parseJsonFields fuel rest).map (fun p => (.obj p.1, p.2))
        else (parseNumberAt (c :: rest)).map (fun p => (.num p.1, p.2))

/-- Fuel-indexed parsing of array elements after the opening bracket: an
immediately closing bracket gives the empty array, otherwise at least one
element must follow. -/
def parseJsonElems : Nat → List Char → Option (List Json × List Char)
  | 0, _ => none
  | fuel + 1, cs =>
    match skipWs cs with
    | [] => none
    | c :: rest =>
      if c = ']' then some ([], rest)
      else parseJsonElemsRest fuel (c :: rest)

/-- Fuel-indexed parsing of a non-empty remainder of an array: one value,
then either a comma and more elements or the closing bracket (so a
trailing comma is rejected, as `JSON.parse` does). -/
def parseJsonElemsRest : Nat → List Char → Option (List Json × List Char)
  | 0, _ => none
  | fuel + 1, cs =>
    match parseJsonValue fuel cs with
    | none => none
    | some (v, r1) =>
      match skipWs r1 with
      | [] => none
      | c :: r2 =>
        if c = ',' then (parseJsonElemsRest fuel r2).map (fun p => (v :: p.1, p.2))
        else if c = ']' then some ([v], r2)
        else none

/-- Fuel-indexed parsing of object fields after the opening brace. -/
def parseJsonFields : Nat → List Char → Option (List (String × Json) × List Char)
  | 0, _ => none
  | fuel + 1, cs =>
    match skipWs cs with
    | [] => none
    | c :: rest =>
      if c = '\x7d' then some ([], rest)
      else parseJsonFieldsRest fuel (c :: rest)

/-- Fuel-indexed parsing of a non-empty remainder of an object: one
`"key": value` pair, then either a comma and more fields or the closing
brace. -/
def parseJsonFieldsRest : Nat → List Char → Option (List (String × Json) × List Char)
  | 0, _ => none
  | fuel + 1, cs =>
    match cs with
    | [] => none
    | c :: rest =>
      if c = '"' then
        match parseStringBody rest with
        | none => none
        | some (k, r1) =>
          match skipWs r1 with
          | [] => none
          | c2 :: r2 =>
            if c2 = ':' then
              match parseJsonValue fuel r2 with
              | none => none
              | some (v, r3) =>
                match skipWs r3 with
                | [] => none
                | c3 :: r4 =>
                  if c3 = ',' then
                    (parseJsonFieldsRest fuel (skipWs r4)).map
                      (fun p => ((String.mk k, v) :: p.1, p.2))
                  else if c3 = '\x7d' then some ([(String.mk k, v)], r4)
                  else none
            else none
      else none

end

/-- Model of `JSON.parse`: parse one value with sufficient fuel and require
that only whitespace remains. -/
def jsonParse (s : String) : Option Json :=
  let cs := s.toList
  match parseJsonValue (cs.length + 1) cs with
  | some (v, rest) => if skipWs rest = [] then some v else none
  | none => none

/-! ### Response normalizer (`BaseAIProvider`, src/providers/base.ts) -/

/-- The in-progress record of the line scanner `parseTextResponse`
(base.ts line 43): a JS object whose fields may each be absent. -/
structure PartialComment where
  file : Option String := none
  line : Option Int := none
  message : Option String := none
  severity : Option String := none
  category : Option String := none
  suggestion : Option String := none
deriving Repr, DecidableEq

/-- JS `parseInt` on an already-trimmed string: optional sign, then the
maximal digit prefix; `none` models `NaN`. -/
def jsParseInt (s : String) : Option Int :=
  match s.toList with
  | '-' :: rest =>
    let (d, _) := takeDigits rest
    if d = [] then none else some (-(digitsVal d : Int))
  | '+' :: rest =>
    let (d, _) := takeDigits rest
    if d = [] then none else some ((digitsVal d : Int))
  | other =>
    let (d, _) := takeDigits other
    if d = [] then none else some ((digitsVal d : Int))

/-- The `currentComment as ReviewComment` cast (base.ts lines 48 and 70):
absent string fields surface as `""` and an absent or `NaN` line as `0`;
the claims never observe these defaults past validation. -/
def materializeComment (p : PartialComment) : ReviewComment :=
  { file := p.file.getD ""
    line := p.line.getD 0
    message := p.message.getD ""
    severity := p.severity.getD ""
    category := p.category.getD ""
    suggestion := p.suggestion }

/-- One iteration of the line loop of `parseTextResponse` (base.ts lines
45-67).  `line.replace("Prefix:", "")` equals dropping the prefix because
the branch guard is `startsWith`. -/
def scanLine (acc : List ReviewComment × PartialComment) (line : String) :
    List ReviewComment × PartialComment :=
  if strStartsWith line "File:" then
    let flushed :=
      if (acc.2.file.getD "") ≠ "" then acc.1 ++ [materializeComment acc.2] else acc.1
    (flushed, { file := some (strTrim (strDrop line 5)) })
  else if strStartsWith line "Line:" then
    (acc.1, { acc.2 with line := jsParseInt (strTrim (strDrop line 5)) })
  else if strStartsWith line "Severity:" then
    let s := strToLower (strTrim (strDrop line 9))
    (acc.1,
      { acc.2 with
        severity := some (if ["info", "warning", "error"].contains s then s else "warning") })
  else if strStartsWith line "Category:" then
    (acc.1, { acc.2 with category := some (strTrim (strDrop line 9)) })
  else if strStartsWith line "Message:" then
    (acc.1, { acc.2 with message := some (strTrim (strDrop line 8)) })
  else if strStartsWith line "Suggestion:" then
    (acc.1, { acc.2 with suggestion := some (strTrim (strDrop line 11)) })
  else acc

/-- `BaseAIProvider.parseTextResponse` (base.ts lines 39-74). -/
def parseTextResponse (response : String) : List ReviewComment :=
  let scanned := (splitOnChar '\n' response).foldl scanLine ([], {})
  if (scanned.2.file.getD "") ≠ "" ∧ (scanned.2.message.getD "") ≠ "" then
    scanned.1 ++ [materializeComment scanned.2]
  else scanned.1

/-- Split a character list at the first occurrence of `needle`, returning
the part before and the part after it. -/
def splitFirstList (needle : List Char) : List Char → Option (List Char × List Char)
  | [] => if needle.isPrefixOf ([] : List Char) then some ([], []) else none
  | c :: rest =>
    if needle.isPrefixOf (c :: rest) then some ([], (c :: rest).drop needle.length)
    else (splitFirstList needle rest).map (fun p => (c :: p.1, p.2))

/-- The capture group of the lazy fence regex
`/```json\n([\s\S]*?)\n```/` (base.ts line 20): the text between the first
occurrence of the opening marker and the first closing marker after it. -/
def extractFenced (response : String) : Option String :=
  match splitFirstList "```json\n".toList response.toList with
  | none => none
  | some (_, afterOpen) =>
    match splitFirstList "\n```".toList afterOpen with
    | none => none
    | some (content, _) => some (String.mk content)

/-- The value returned by `BaseAIProvider.parseReviewResponse`: either the
raw result of `JSON.parse` (which the TS code casts, unchecked, to a
comment array) or the output of the line scanner. -/
inductive ParseOutcome where
  | jsonValue (v : Json)
  | scanned (comments : List ReviewComment)
deriving Repr

/-- `BaseAIProvider.parseReviewResponse` (base.ts lines 18-37): fenced JSON
first, then raw JSON when the trimmed text starts with `[` or `{`, and the
line scanner as fallback; a `JSON.parse` failure is caught and also falls
back to the line scanner, so the function never throws. -/
def parseReviewResponse (response : String) : ParseOutcome :=
  match extractFenced response with
  | some content =>
    match jsonParse content with
    | some v => .jsonValue v
    | none => .scanned (parseTextResponse response)
  | none =>
    let direct := strTrim response
    if strStartsWith direct "[" || strStartsWith direct "\x7b" then
      match jsonParse direct with
      | some v => .jsonValue v
      | none => .scanned (parseTextResponse response)
    else .scanned (parseTextResponse response)

/-! ### Comment encoding and decoding for the round-trip statement -/

/-- JSON encoding of one comment, fields in the documented order, the
optional suggestion last. -/
def commentToJson (c : ReviewComment) : Json :=
  .obj ([("file", .str c.file), ("line", .num c.line),
      ("message", .str c.message), ("severity", .str c.severity),
      ("category", .str c.category)] ++
    (match c.suggestion with
      | some s => [("suggestion", .str s)]
      | none => []))

/-- JSON encoding of a comment list. -/
def commentsToJson (cs : List ReviewComment) : Json :=
  .arr (cs.map commentToJson)

/-- String payload of a JSON value, if it is a string. -/
def jsonAsString : Json → Option String
  | .str s => some s
  | _ => none

/-- Integer payload of a JSON value, if it is a number. -/
def jsonAsInt : Json → Option Int
  | .num n => some n
  | _ => none

/-- Field-for-field reading of one parsed JSON object as a `ReviewComment`:
this is the shape the TS cast assumes. -/
def jsonToComment (v : Json) : Option ReviewComment :=
  match v with
  | .obj fs => do
    let file ← (List.lookup "file" fs).bind jsonAsString
    let line ← (List.lookup "line" fs).bind jsonAsInt
    let message ← (List.lookup "message" fs).bind jsonAsString
    let severity ← (List.lookup "severity" fs).bind jsonAsString
    let category ← (List.lookup "category" fs).bind jsonAsString
    pure (ReviewComment.mk file line message severity category
      ((List.lookup "suggestion" fs).bind jsonAsString))
  | _ => none

/-- Field-for-field reading of a parsed JSON array as a comment list. -/
def decodeComments (v : Json) : Option (List ReviewComment) :=
  match v with
  | .arr es => es.mapM jsonToComment
  | _ => none

/-- Canonical printed text of a JSON value. -/
def printJson (v : Json) : String :=
  String.mk (printJsonChars v)

/-- Canonical JSON serialization of a comment list. -/
def printComments (cs : List ReviewComment) : String :=
  printJson (commentsToJson cs)

/-- Enclose a text in a ```json code fence. -/
def fenceWrap (s : String) : String :=
  "```json\n" ++ s ++ "\n```"

/-! ### Spec-side definitions

The following definitions restate quantities in the words of the
specification; the claim theorems compare them with the embedded source
functions above. -/

/-- Spec: weight(error) = -10, weight(warning) = -5, weight(info) = -1.
Total function; the claims apply it to valid severities only. -/
def specWeight (s : String) : Int :=
  if s = "error" then -10 else if s = "warning" then -5 else -1

/-- Spec: score = clamp(100 + Σ weight(severity), 0, 100). -/
def specScore (comments : List ReviewComment) : Int :=
  max 0 (min 100 (100 + (comments.map (fun c => specWeight c.severity)).sum))

/-- Spec: severity rank info=1, warning=2, error=3 (total function). -/
def specSeverityRank (s : String) : Nat :=
  if s = "info" then 1 else if s = "warning" then 2 else 3

/-- Spec: threshold rank low=1, medium=2, high=3 (total function). -/
def specThresholdRank (t : String) : Nat :=
  if t = "low" then 1 else if t = "medium" then 2 else 3

/-- The addition texts a run of hunk-body lines contributes: marker-stripped
`+` lines that are not `+++` lines. -/
def additionsOfLines (ls : List String) : List String :=
  (ls.filter (fun l => strStartsWith l "+" && !strStartsWith l "+++")).map
    (fun l => strDrop l 1)

/-- The deletion texts a run of hunk-body lines contributes. -/
def deletionsOfLines (ls : List String) : List String :=
  (ls.filter (fun l => strStartsWith l "-" && !strStartsWith l "---")).map
    (fun l => strDrop l 1)

/-- The context texts a run of hunk-body lines contributes: lines starting
with a space, after the `+`/`-` cases are excluded. -/
def contextOfLines (ls : List String) : List String :=
  (ls.filter (fun l =>
    !(strStartsWith l "+" && !strStartsWith l "+++") &&
    !(strStartsWith l "-" && !strStartsWith l "---") &&
    strStartsWith l " ")).map (fun l => strDrop l 1)

/-- The first character of `rest`, if any, is not a digit: the condition
under which number parsing does not overrun into `rest`. -/
def HeadNotDigit : List Char → Prop
  | [] => True
  | c :: _ => c.isDigit = false

/-! ## Theorems -/

theorem weights_eq_specWeight {s : String}
    (h : s ∈ (["info", "warning", "error"] : List String)) :
    weights s = some (specWeight s) := by
  simp only [List.mem_cons, List.not_mem_nil, or_false] at h
  rcases h with h | h | h <;> subst h <;> decide

theorem score_foldl (comments : List ReviewComment)
    (hv : ∀ c ∈ comments, c.severity ∈ (["info", "warning", "error"] : List String)) :
    ∀ a : Int,
      comments.foldl
        (fun acc c =>
          match acc, weights c.severity with
          | some s, some w => some (s + w)
          | _, _ => none)
        (some a) = some (a + (comments.map (fun c => specWeight c.severity)).sum) := by
  induction comments with
  | nil => intro a; simp
  | cons hd tl ih =>
    intro a
    have hhd : weights hd.severity = some (specWeight hd.severity) :=
      weights_eq_specWeight (hv hd (by simp))
    have htl := fun c hc => hv c (List.mem_cons_of_mem _ hc)
    simp only [List.foldl_cons, hhd]
    rw [ih htl]
    rw [List.map_cons, List.sum_cons]
    congr 1
    ring

/-- C1: for every validated comment list, `calculateScore` equals the
spec's clamp(100 + Σ weight(severity), 0, 100) with weight(error) = -10,
weight(warning) = -5, weight(info) = -1; the empty list scores 100 and
every score lies in [0, 100]. -/
theorem claim_C1_score (comments : List ReviewComment)
    (hv : ∀ c ∈ comments, c.severity ∈ (["info", "warning", "error"] : List String)) :
    calculateScore comments = some (specScore comments) ∧
    calculateScore [] = some 100 ∧
    0 ≤ specScore comments ∧ specScore comments ≤ 100 := by
  refine ⟨?_, rfl, ?_, ?_⟩
  · unfold calculateScore
    by_cases h0 : comments.length = 0
    · have he : comments = [] := List.length_eq_zero.mp h0
      subst he
      simp [specScore]
    · rw [if_neg h0, score_foldl comments hv 0]
      simp [specScore]
  · unfold specScore
    omega
  · unfold specScore
    omega

/-- Witness for C1 at a concrete one-error comment list. -/
theorem claim_C1_score_witness :
    calculateScore
        [{ file := "a.ts", line := 1, message := "m", severity := "error",
            category := "security" }] =
      some (specScore
        [{ file := "a.ts", line := 1, message := "m", severity := "error",
            category := "security" }]) ∧
    calculateScore [] = some 100 ∧
    0 ≤ specScore
        [{ file := "a.ts", line := 1, message := "m", severity := "error",
            category := "security" }] ∧
    specScore
        [{ file := "a.ts", line := 1, message := "m", severity := "error",
            category := "security" }] ≤ 100 :=
  claim_C1_score _ (by decide)

theorem shouldApprove_iff (cfg : ReviewConfig) (L : List String)
    (comments : List ReviewComment) (hL : cfg.requireApprovalFor = some L) :
    shouldApprove cfg comments = true ↔ ∀ c ∈ comments, c.severity ∉ L := by
  unfold shouldApprove
  rw [hL]
  by_cases hb : cfg.autoApprove = true ∧ comments.length = 0
  · rw [if_pos hb]
    have he : comments = [] := List.length_eq_zero.mp hb.2
    subst he
    simp
  · rw [if_neg hb]
    simp [List.length_eq_zero, List.filter_eq_nil_iff]

/-- C2: with auto-approve and no comments the result is approved;
otherwise approval holds exactly when no comment's severity is in the
configured `requireApprovalFor` list, whose loader default is
`["error"]`; under that default warnings-only lists are approved and one
error flips approval to false. -/
theorem claim_C2_approval :
    (∀ (cfg : ReviewConfig) (comments : List ReviewComment),
      cfg.autoApprove = true → comments = [] → shouldApprove cfg comments = true) ∧
    (∀ (cfg : ReviewConfig) (L : List String) (comments : List ReviewComment),
      cfg.requireApprovalFor = some L →
      (shouldApprove cfg comments = true ↔ ∀ c ∈ comments, c.severity ∉ L)) ∧
    (mergeWithDefaults {}).requireApprovalFor = some ["error"] ∧
    (∀ (cfg : ReviewConfig) (comments : List ReviewComment),
      cfg.requireApprovalFor = some ["error"] →
      (∀ c ∈ comments, c.severity = "warning") →
      shouldApprove cfg comments = true) ∧
    (∀ (cfg : ReviewConfig) (comments : List ReviewComment) (e : ReviewComment),
      cfg.requireApprovalFor = some ["error"] → e.severity = "error" →
      shouldApprove cfg (e :: comments) = false) := by
  refine ⟨?_, fun cfg L comments hL => shouldApprove_iff cfg L comments hL, rfl, ?_, ?_⟩
  · intro cfg comments h1 h2
    subst h2
    simp [shouldApprove, h1]
  · intro cfg comments h hw
    rw [shouldApprove_iff cfg _ comments h]
    intro c hc
    rw [hw c hc]
    decide
  · intro cfg comments e h he
    rw [← Bool.not_eq_true, shouldApprove_iff cfg _ (e :: comments) h]
    intro hall
    exact hall e (by simp) (by rw [he]; decide)

/-- Witness for C2 at a concrete config and comment lists. -/
theorem claim_C2_approval_witness :
    shouldApprove { requireApprovalFor := some ["error"] }
        [{ file := "a.ts", line := 1, message := "m", severity := "warning",
            category := "style" }] = true ∧
    shouldApprove { requireApprovalFor := some ["error"] }
        ({ file := "b.ts", line := 2, message := "n", severity := "error",
            category := "security" } ::
          [{ file := "a.ts", line := 1, message := "m", severity := "warning",
              category := "style" }]) = false :=
  ⟨claim_C2_approval.2.2.2.1 _ _ rfl (by decide),
    claim_C2_approval.2.2.2.2 _ _ _ rfl rfl⟩

theorem valid_severity_mem (c : ReviewComment) (h : isValidComment c = true) :
    c.severity ∈ (["info", "warning", "error"] : List String) := by
  unfold isValidComment at h
  simp only [Bool.and_eq_true, decide_eq_true_eq, List.elem_eq_mem] at h
  exact h.1.1.2

/-- C3: a valid comment passes the severity threshold iff its severity
rank (info=1, warning=2, error=3) is at least the configured threshold's
rank (low=1, medium=2, high=3); with no threshold on the config the
aggregator falls back to "low", keeping every valid comment. -/
theorem claim_C3_threshold :
    (∀ (cfg : ReviewConfig) (c : ReviewComment) (t : String),
      isValidComment c = true → cfg.severityThreshold = some t →
      t ∈ (["low", "medium", "high"] : List String) →
      (meetsSeverityThreshold cfg c = true ↔
        specThresholdRank t ≤ specSeverityRank c.severity)) ∧
    (∀ (cfg : ReviewConfig) (c : ReviewComment),
      isValidComment c = true → cfg.severityThreshold = none →
      meetsSeverityThreshold cfg c = true) := by
  constructor
  · intro cfg c t hc ht htm
    have hs := valid_severity_mem c hc
    simp only [List.mem_cons, List.not_mem_nil, or_false] at hs htm
    unfold meetsSeverityThreshold
    rw [ht]
    rcases hs with hs | hs | hs <;> rcases htm with htm | htm | htm <;>
      rw [hs, htm] <;> simp [jsOrString, severityOrder, thresholdOrder, jsGE,
        specSeverityRank, specThresholdRank]
  · intro cfg c hc ht
    have hs := valid_severity_mem c hc
    simp only [List.mem_cons, List.not_mem_nil, or_false] at hs
    unfold meetsSeverityThreshold
    rw [ht]
    rcases hs with hs | hs | hs <;> rw [hs] <;> decide

/-- Witness for C3 at concrete configs and comments. -/
theorem claim_C3_threshold_witness :
    (meetsSeverityThreshold { severityThreshold := some "medium" }
        { file := "a.ts", line := 1, message := "m", severity := "info",
          category := "style" } = true ↔
      specThresholdRank "medium" ≤ specSeverityRank "info") ∧
    meetsSeverityThreshold { severityThreshold := none }
        { file := "a.ts", line := 1, message := "m", severity := "info",
          category := "style" } = true :=
  ⟨claim_C3_threshold.1 _ _ _ (by decide) rfl (by decide),
    claim_C3_threshold.2 _ _ (by decide) rfl⟩

/-- C6: the hunk-header regex maps `@@ -10,5 +12,7 @@` to oldStart=10,
oldLines=5, newStart=12, newLines=7, and `@@ -1 +1 @@` to starts 1 with
both omitted lengths defaulting to 1, and the per-file parser opens the
corresponding hunk. -/
theorem claim_C6_hunk_header :
    parseHunkHeader "@@ -10,5 +12,7 @@" = some (10, 5, 12, 7) ∧
    parseHunkHeader "@@ -1 +1 @@" = some (1, 1, 1, 1) ∧
    (parseFileBlock "f" ["@@ -10,5 +12,7 @@"]).hunks =
      [{ oldStart := 10, oldLines := 5, newStart := 12, newLines := 7, lines := [] }] := by
  refine ⟨?_, ?_, ?_⟩ <;> rfl

/-- C9: when no parsed change passes the file filter, `reviewChanges`
returns the fixed empty result (no comments, score 100, approved, all
seven category counts zero, the fixed summary) and never calls the
provider. -/
theorem claim_C9_empty_short_circuit (cfg : ReviewConfig)
    (provider : CodeChange → Except String (List ReviewComment))
    (changes : List CodeChange)
    (h : ∀ ch ∈ changes,
      (FileFilter.make cfg.ignorePatterns []).shouldReview ch.file = false) :
    reviewChanges cfg provider changes =
      (createEmptyResult "No reviewable changes found", []) ∧
    (reviewChanges cfg provider changes).1.comments = [] ∧
    (reviewChanges cfg provider changes).1.score = some 100 ∧
    (reviewChanges cfg provider changes).1.approved = true ∧
    (reviewChanges cfg provider changes).1.summary = "No reviewable changes found" ∧
    (reviewChanges cfg provider changes).1.categories =
      [("code-quality", 0), ("security", 0), ("performance", 0),
        ("maintainability", 0), ("style", 0), ("testing", 0), ("documentation", 0)] ∧
    (reviewChanges cfg provider changes).2 = [] := by
  have hfil : changes.filter
      (fun ch => (FileFilter.make cfg.ignorePatterns []).shouldReview ch.file) = [] :=
    List.filter_eq_nil_iff.mpr (fun a ha => by simp [h a ha])
  have hmain : reviewChanges cfg provider changes =
      (createEmptyResult "No reviewable changes found", []) := by
    simp [reviewChanges, hfil]
  refine ⟨hmain, ?_, ?_, ?_, ?_, ?_, ?_⟩ <;> rw [hmain] <;> rfl

/-- Witness for C9: a single ignored file short-circuits. -/
theorem claim_C9_witness :
    reviewChanges {} (fun _ => .error "x")
        [{ file := "node_modules/x.js", additions := [], deletions := [],
            context := [], hunks := [] }] =
      (createEmptyResult "No reviewable changes found", []) :=
  (claim_C9_empty_short_circuit _ _ _
    (by intro ch hch; rw [List.mem_singleton] at hch; subst hch; rfl)).1

theorem meets_high_eq_error (cfg : ReviewConfig) (c : ReviewComment)
    (hthr : cfg.severityThreshold = some "high")
    (h : meetsSeverityThreshold cfg c = true) : c.severity = "error" := by
  have h' : jsGE (severityOrder c.severity)
      (thresholdOrder (jsOrString cfg.severityThreshold "low")) = true := h
  rw [hthr] at h'
  have h3 : thresholdOrder (jsOrString (some "high") "low") = some 3 := rfl
  rw [h3] at h'
  unfold severityOrder at h'
  split_ifs at h' with h1 h2 hE
  · simp [jsGE] at h'
  · simp [jsGE] at h'
  · exact hE
  · simp [jsGE] at h'

/-- C10: when the provider call for a reviewable file fails, the synthetic
warning comment is appended without passing validation or the severity
threshold: it is the final comment list even under threshold "high",
although it fails that threshold itself and every warning comment from a
successful response is dropped by `validateAndFilterComments`. -/
theorem claim_C10_synthetic_comment (cfg : ReviewConfig) (ch : CodeChange) (e : String)
    (provider : CodeChange → Except String (List ReviewComment))
    (hthr : cfg.severityThreshold = some "high")
    (hrev : (FileFilter.make cfg.ignorePatterns []).shouldReview ch.file = true)
    (hp : provider ch = .error e) :
    (reviewChanges cfg provider [ch]).1.comments = [syntheticFailureComment ch.file e] ∧
    (syntheticFailureComment ch.file e).severity = "warning" ∧
    meetsSeverityThreshold cfg (syntheticFailureComment ch.file e) = false ∧
    (∀ (comments : List ReviewComment) (f : String) (c : ReviewComment),
      c ∈ validateAndFilterComments cfg comments f → c.severity ≠ "warning") := by
  refine ⟨?_, rfl, ?_, ?_⟩
  · have hfil : [ch].filter
        (fun x => (FileFilter.make cfg.ignorePatterns []).shouldReview x.file) = [ch] := by
      simp [hrev]
    simp [reviewChanges, hfil, hp, buildResult]
  · have hm : meetsSeverityThreshold cfg (syntheticFailureComment ch.file e) =
        jsGE (severityOrder "warning")
          (thresholdOrder (jsOrString cfg.severityThreshold "low")) := rfl
    rw [hm, hthr]
    rfl
  · intro comments f c hc
    unfold validateAndFilterComments at hc
    simp only [List.mem_map, List.mem_filter] at hc
    obtain ⟨c', ⟨⟨hmem0, hval⟩, hmeets⟩, heq⟩ := hc
    have hsev : c'.severity = "error" := meets_high_eq_error cfg c' hthr hmeets
    rw [← heq]
    simp [hsev]

/-- Witness for C10: a provider failure on one reviewable file under
threshold "high". -/
theorem claim_C10_witness :
    (reviewChanges { severityThreshold := some "high" } (fun _ => .error "boom")
        [{ file := "src/a.ts", additions := [], deletions := [],
            context := [], hunks := [] }]).1.comments =
      [syntheticFailureComment "src/a.ts" "boom"] ∧
    meetsSeverityThreshold { severityThreshold := some "high" }
      (syntheticFailureComment "src/a.ts" "boom") = false :=
  ⟨(claim_C10_synthetic_comment { severityThreshold := some "high" }
      { file := "src/a.ts", additions := [], deletions := [], context := [],
        hunks := [] } "boom" (fun _ => .error "boom") rfl rfl rfl).1,
    (claim_C10_synthetic_comment { severityThreshold := some "high" }
      { file := "src/a.ts", additions := [], deletions := [], context := [],
        hunks := [] } "boom" (fun _ => .error "boom") rfl rfl rfl).2.2.1⟩

theorem shouldReview_eq (f : FileFilter) (p : String) :
    f.shouldReview p =
      (!f.isIgnored p &&
        (if 0 < f.includePatterns.length then f.isIncluded p
          else isReviewableFile p)) := by
  unfold FileFilter.shouldReview
  cases h : f.isIgnored p <;> simp [h]

/-- C8: `shouldReview` rejects paths matching any ignore-glob (defaults
merged with user patterns), otherwise follows a configured non-empty
include list, otherwise the extension allow-list; consequently
`node_modules/x.js` is always rejected, `src/app.ts` is accepted under
defaults, and a path matching a user ignore-glob is rejected regardless of
its extension. -/
theorem claim_C8_filter_policy :
    (∀ (user inc : List String) (p : String),
      (FileFilter.make user inc).shouldReview p = true ↔
        ((∀ pat ∈ getDefaultIgnorePatterns ++ user, minimatchDot p pat = false) ∧
          (if inc = [] then isReviewableFile p = true
            else ∃ pat ∈ inc, minimatchDot p pat = true))) ∧
    (∀ (user inc : List String),
      (FileFilter.make user inc).shouldReview "node_modules/x.js" = false) ∧
    (FileFilter.make [] []).shouldReview "src/app.ts" = true ∧
    (∀ (p pat : String) (user inc : List String),
      minimatchDot p pat = true → pat ∈ user →
      (FileFilter.make user inc).shouldReview p = false) := by
  have hig_user : ∀ (p pat : String) (user inc : List String),
      minimatchDot p pat = true → pat ∈ getDefaultIgnorePatterns ++ user →
      (FileFilter.make user inc).shouldReview p = false := by
    intro p pat user inc hm hmem
    have hig : (FileFilter.make user inc).isIgnored p = true := by
      unfold FileFilter.isIgnored FileFilter.make
      exact List.any_eq_true.mpr ⟨pat, hmem, by simpa using hm⟩
    unfold FileFilter.shouldReview
    simp [hig]
  refine ⟨?_, ?_, ?_, ?_⟩
  · intro user inc p
    rw [shouldReview_eq]
    cases hig : (FileFilter.make user inc).isIgnored p with
    | true =>
      simp only [hig, Bool.not_true, Bool.false_and, Bool.false_eq_true, false_iff]
      rintro ⟨hall, -⟩
      obtain ⟨pat, hmem, hpat⟩ := List.any_eq_true.mp hig
      have := hall pat hmem
      simp [this] at hpat
    | false =>
      have hall : ∀ pat ∈ getDefaultIgnorePatterns ++ user, minimatchDot p pat = false := by
        intro pat hmem
        have := List.any_eq_false.mp hig pat hmem
        simpa using this
      simp only [hig, Bool.not_false, Bool.true_and]
      cases inc with
      | nil =>
        simp only [List.length_nil, Nat.lt_irrefl, if_false, if_pos rfl]
        constructor
        · intro h
          exact ⟨hall, h⟩
        · intro h
          exact h.2
      | cons i0 is =>
        have hlen : 0 < (i0 :: is).length := by simp
        simp only [FileFilter.make] at hig ⊢
        rw [if_pos hlen, if_neg (by simp)]
        simp only [FileFilter.isIncluded]
        constructor
        · intro h
          obtain ⟨pat, hmem, hpat⟩ := List.any_eq_true.mp h
          exact ⟨hall, pat, hmem, by simpa using hpat⟩
        · rintro ⟨-, pat, hmem, hpat⟩
          exact List.any_eq_true.mpr ⟨pat, hmem, by simpa using hpat⟩
  · intro user inc
    exact hig_user _ "node_modules/**" user inc rfl (by simp [getDefaultIgnorePatterns])
  · rfl
  · intro p pat user inc hm hmem
    exact hig_user p pat user inc hm (List.mem_append_right _ hmem)

/-- Witness for C8: a user ignore-glob rejects a reviewable path. -/
theorem claim_C8_filter_policy_witness :
    minimatchDot "src/special.ts" "src/**" = true ∧
    (FileFilter.make ["src/**"] []).shouldReview "src/special.ts" = false :=
  ⟨rfl, claim_C8_filter_policy.2.2.2 "src/special.ts" "src/**" ["src/**"] [] rfl
    (by simp)⟩

theorem additionsOfLines_cons (l : String) (ls : List String) :
    additionsOfLines (l :: ls) =
      (if strStartsWith l "+" && !strStartsWith l "+++" then [strDrop l 1] else []) ++
        additionsOfLines ls := by
  unfold additionsOfLines
  rw [List.filter_cons]
  split <;> simp

theorem deletionsOfLines_cons (l : String) (ls : List String) :
    deletionsOfLines (l :: ls) =
      (if strStartsWith l "-" && !strStartsWith l "---" then [strDrop l 1] else []) ++
        deletionsOfLines ls := by
  unfold deletionsOfLines
  rw [List.filter_cons]
  split <;> simp

theorem contextOfLines_cons (l : String) (ls : List String) :
    contextOfLines (l :: ls) =
      (if !(strStartsWith l "+" && !strStartsWith l "+++") &&
          !(strStartsWith l "-" && !strStartsWith l "---") &&
          strStartsWith l " " then [strDrop l 1] else []) ++
        contextOfLines ls := by
  unfold contextOfLines
  rw [List.filter_cons]
  split <;> simp

theorem additionsOfLines_append (xs ys : List String) :
    additionsOfLines (xs ++ ys) = additionsOfLines xs ++ additionsOfLines ys := by
  unfold additionsOfLines
  rw [List.filter_append, List.map_append]

theorem deletionsOfLines_append (xs ys : List String) :
    deletionsOfLines (xs ++ ys) = deletionsOfLines xs ++ deletionsOfLines ys := by
  unfold deletionsOfLines
  rw [List.filter_append, List.map_append]

theorem contextOfLines_append (xs ys : List String) :
    contextOfLines (xs ++ ys) = contextOfLines xs ++ contextOfLines ys := by
  unfold contextOfLines
  rw [List.filter_append, List.map_append]

theorem scan_no_header_outside (ls : List String)
    (h : ∀ l ∈ ls, strStartsWith l "@@" = false) (st : DiffScanState)
    (hin : st.inHunk = false) :
    ls.foldl scanDiffLine st = st := by
  induction ls generalizing st with
  | nil => rfl
  | cons hd tl ih =>
    have hhd := h hd (by simp)
    have htl := fun l hl => h l (List.mem_cons_of_mem _ hl)
    rw [List.foldl_cons]
    have hstep : scanDiffLine st hd = st := by
      unfold scanDiffLine
      rw [if_neg (by simp [hhd]), if_neg (by simp [hin])]
    rw [hstep, ih htl st hin]

theorem isPrefixOf_single_excl {l : List Char} {c d : Char} (hcd : d ≠ c)
    (h : [c].isPrefixOf l = true) : [d].isPrefixOf l = false := by
  cases l with
  | nil => simp [List.isPrefixOf] at h
  | cons x xs =>
    simp only [List.isPrefixOf, Bool.and_eq_true, beq_iff_eq] at h
    obtain ⟨hcx, -⟩ := h
    subst hcx
    simp [List.isPrefixOf, hcd]

theorem startsWith_plus_not_minus (l : String) (h : strStartsWith l "+" = true) :
    strStartsWith l "-" = false := by
  have h1 : ("+".data : List Char) = ['+'] := rfl
  have h2 : ("-".data : List Char) = ['-'] := rfl
  unfold strStartsWith at h ⊢
  rw [h1] at h
  rw [h2]
  exact isPrefixOf_single_excl (by decide) h

theorem scan_no_header_open (ls : List String)
    (h : ∀ l ∈ ls, strStartsWith l "@@" = false) :
    ∀ (st : DiffScanState) (hk : GitHunk), st.inHunk = true → st.cur = some hk →
      ls.foldl scanDiffLine st =
        { st with
          cur := some { hk with lines := hk.lines ++ ls }
          additions := st.additions ++ additionsOfLines ls
          deletions := st.deletions ++ deletionsOfLines ls
          context := st.context ++ contextOfLines ls } := by
  induction ls with
  | nil =>
    intro st hk hin hcur
    simp only [List.foldl_nil, additionsOfLines, deletionsOfLines, contextOfLines,
      List.filter_nil, List.map_nil, List.append_nil]
    rw [← hcur]
  | cons hd tl ih =>
    intro st hk hin hcur
    have hhd := h hd (by simp)
    have htl := fun l hl => h l (List.mem_cons_of_mem _ hl)
    rw [List.foldl_cons]
    rw [additionsOfLines_cons, deletionsOfLines_cons, contextOfLines_cons]
    by_cases hplus : (strStartsWith hd "+" && !strStartsWith hd "+++") = true
    · have hminus : (strStartsWith hd "-" && !strStartsWith hd "---") = false := by
        have hp1 : strStartsWith hd "+" = true := by
          have hp := hplus
          simp only [Bool.and_eq_true] at hp
          exact hp.1
        simp [startsWith_plus_not_minus hd hp1]
      have hstep : scanDiffLine st hd =
          { st with
            cur := some { hk with lines := hk.lines ++ [hd] }
            additions := st.additions ++ [strDrop hd 1] } := by
        unfold scanDiffLine
        rw [if_neg (by simp [hhd]), if_pos hin]
        rw [hcur]
        simp [hplus]
      rw [hstep]
      rw [ih htl _ { hk with lines := hk.lines ++ [hd] } (by simp [hin]) (by simp)]
      simp [hplus, hminus, List.append_assoc]
    · by_cases hminus : (strStartsWith hd "-" && !strStartsWith hd "---") = true
      · have hstep : scanDiffLine st hd =
            { st with
              cur := some { hk with lines := hk.lines ++ [hd] }
              deletions := st.deletions ++ [strDrop hd 1] } := by
          unfold scanDiffLine
          rw [if_neg (by simp [hhd]), if_pos hin]
          rw [hcur]
          simp [hplus, hminus]
        rw [hstep]
        rw [ih htl _ { hk with lines := hk.lines ++ [hd] } (by simp [hin]) (by simp)]
        simp [hplus, hminus, List.append_assoc]
      · by_cases hspace : strStartsWith hd " " = true
        · have hstep : scanDiffLine st hd =
              { st with
                cur := some { hk with lines := hk.lines ++ [hd] }
                context := st.context ++ [strDrop hd 1] } := by
            unfold scanDiffLine
            rw [if_neg (by simp [hhd]), if_pos hin]
            rw [hcur]
            simp [hplus, hminus, hspace]
          rw [hstep]
          rw [ih htl _ { hk with lines := hk.lines ++ [hd] } (by simp [hin]) (by simp)]
          simp [hplus, hminus, hspace, List.append_assoc]
        · have hstep : scanDiffLine st hd =
              { st with cur := some { hk with lines := hk.lines ++ [hd] } } := by
            unfold scanDiffLine
            rw [if_neg (by simp [hhd]), if_pos hin]
            rw [hcur]
            simp [hplus, hminus, hspace]
          rw [hstep]
          rw [ih htl _ { hk with lines := hk.lines ++ [hd] } (by simp [hin]) (by simp)]
          simp [hplus, hminus, hspace, List.append_assoc]

theorem scan_bad_line_open (st : DiffScanState) (bad : String) (hk : GitHunk)
    (hbad : strStartsWith bad "@@" = true) (hpnone : parseHunkHeader bad = none)
    (hcur : st.cur = some hk) :
    scanDiffLine st bad = { st with curPushes := st.curPushes + 1 } := by
  simp [scanDiffLine, hbad, hpnone, hcur]

theorem scan_bad_line_closed (st : DiffScanState) (bad : String)
    (hbad : strStartsWith bad "@@" = true) (hpnone : parseHunkHeader bad = none)
    (hcur : st.cur = none) :
    scanDiffLine st bad = st := by
  simp only [scanDiffLine, hbad, hpnone, hcur]
  rw [← hcur]
  simp

/-- C4 counterexample: in the block
`["@@ -1 +1 @@", "+a", "@@ bogus", "+b"]` the line `+b` follows an invalid
hunk header, yet its stripped text lands in the addition list and the raw
line in a hunk's line list (twice, because the open hunk is pushed again),
contradicting "the lines that follow it attach to no hunk". -/
theorem claim_C4_counterexample :
    (parseFileBlock "f" ["@@ -1 +1 @@", "+a", "@@ bogus", "+b"]).additions =
      ["a", "b"] ∧
    "b" ∈ (parseFileBlock "f" ["@@ -1 +1 @@", "+a", "@@ bogus", "+b"]).additions ∧
    ((parseFileBlock "f" ["@@ -1 +1 @@", "+a", "@@ bogus", "+b"]).hunks.map
      (fun h => h.lines)) = [["+a", "+b"], ["+a", "+b"]] ∧
    (["a", "b"] : List String) ≠ ["a"] := by
  refine ⟨rfl, ?_, rfl, by decide⟩
  have h : (parseFileBlock "f" ["@@ -1 +1 @@", "+a", "@@ bogus", "+b"]).additions =
      ["a", "b"] := rfl
  rw [h]
  simp

/-- C4 amended: a line starting with `@@` that fails the hunk-header
pattern opens no new hunk.  Before any valid header it has no effect and
the surrounding lines attach to nothing.  After a valid header, however,
the still-open hunk is pushed once more (appearing duplicated in the hunk
list) and the following lines keep attaching to it and to the
addition/deletion/context lists until the next valid header or the file
boundary. -/
theorem claim_C4_amended :
    (∀ (file bad : String) (pre post : List String),
      strStartsWith bad "@@" = true → parseHunkHeader bad = none →
      (∀ l ∈ pre, strStartsWith l "@@" = false) →
      (∀ l ∈ post, strStartsWith l "@@" = false) →
      parseFileBlock file (pre ++ bad :: post) =
        { file := file, additions := [], deletions := [], context := [],
          hunks := [] }) ∧
    (∀ (file hdr bad : String) (o1 o2 n1 n2 : Nat) (mid post : List String),
      strStartsWith hdr "@@" = true → parseHunkHeader hdr = some (o1, o2, n1, n2) →
      strStartsWith bad "@@" = true → parseHunkHeader bad = none →
      (∀ l ∈ mid, strStartsWith l "@@" = false) →
      (∀ l ∈ post, strStartsWith l "@@" = false) →
      parseFileBlock file (hdr :: (mid ++ bad :: post)) =
        { file := file
          additions := additionsOfLines (mid ++ post)
          deletions := deletionsOfLines (mid ++ post)
          context := contextOfLines (mid ++ post)
          hunks :=
            [{ oldStart := o1, oldLines := o2, newStart := n1, newLines := n2,
                lines := mid ++ post },
              { oldStart := o1, oldLines := o2, newStart := n1, newLines := n2,
                lines := mid ++ post }] }) := by
  constructor
  · intro file bad pre post hbad hpnone hpre hpost
    unfold parseFileBlock
    rw [List.foldl_append, scan_no_header_outside pre hpre initDiffScanState rfl,
      List.foldl_cons, scan_bad_line_closed initDiffScanState bad hbad hpnone rfl,
      scan_no_header_outside post hpost initDiffScanState rfl]
    rfl
  · intro file hdr bad o1 o2 n1 n2 mid post hh hp hbad hpnone hmid hpost
    unfold parseFileBlock
    rw [List.foldl_cons]
    have hstep : scanDiffLine initDiffScanState hdr =
        ⟨[], [], [], [], some ⟨o1, o2, n1, n2, []⟩, 0, true⟩ := by
      simp [scanDiffLine, initDiffScanState, hh, hp]
    rw [hstep, List.foldl_append,
      scan_no_header_open mid hmid _ ⟨o1, o2, n1, n2, []⟩ rfl rfl,
      List.foldl_cons,
      scan_bad_line_open _ bad ⟨o1, o2, n1, n2, [] ++ mid⟩ hbad hpnone (by simp),
      scan_no_header_open post hpost _ ⟨o1, o2, n1, n2, [] ++ mid⟩ (by simp) (by simp)]
    simp [finishDiffScan, additionsOfLines_append, deletionsOfLines_append,
      contextOfLines_append, List.replicate_succ, List.append_assoc]

/-- Witness for the amended C4 at the counterexample block. -/
theorem claim_C4_amended_witness :
    parseFileBlock "f" ("@@ -1 +1 @@" :: (["+a"] ++ "@@ bogus" :: ["+b"])) =
      { file := "f"
        additions := additionsOfLines (["+a"] ++ ["+b"])
        deletions := deletionsOfLines (["+a"] ++ ["+b"])
        context := contextOfLines (["+a"] ++ ["+b"])
        hunks :=
          [{ oldStart := 1, oldLines := 1, newStart := 1, newLines := 1,
              lines := ["+a"] ++ ["+b"] },
            { oldStart := 1, oldLines := 1, newStart := 1, newLines := 1,
              lines := ["+a"] ++ ["+b"] }] } :=
  claim_C4_amended.2 "f" "@@ -1 +1 @@" "@@ bogus" 1 1 1 1 ["+a"] ["+b"]
    rfl rfl rfl rfl (by decide) (by decide)

/-- C5 counterexample: for the hunk body line `+ab` the hunk's line list
keeps the raw text `+ab` (the marker is not stripped there), while the
addition list receives the stripped `ab` — the claim's "stripped text
appended to both" fails on the hunk's line list. -/
theorem claim_C5_counterexample :
    ((parseFileBlock "f" ["@@ -1 +1 @@", "+ab"]).hunks.map (fun h => h.lines)) =
      [["+ab"]] ∧
    (parseFileBlock "f" ["@@ -1 +1 @@", "+ab"]).additions = ["ab"] ∧
    (["+ab"] : List String) ≠ ["ab"] := by
  refine ⟨rfl, rfl, by decide⟩

/-- C5 amended: inside an open hunk every line is appended raw (marker
intact) to the hunk's line list; a `+` line (not `+++`) additionally
contributes its marker-stripped text to the addition list, a `-` line
(not `---`) to the deletion list, and a leading-space line to the context
list. -/
theorem claim_C5_amended (file hdr : String) (o1 o2 n1 n2 : Nat) (ls : List String)
    (hh : strStartsWith hdr "@@" = true)
    (hp : parseHunkHeader hdr = some (o1, o2, n1, n2))
    (hl : ∀ l ∈ ls, strStartsWith l "@@" = false) :
    parseFileBlock file (hdr :: ls) =
      { file := file
        additions := additionsOfLines ls
        deletions := deletionsOfLines ls
        context := contextOfLines ls
        hunks := [{ oldStart := o1, oldLines := o2, newStart := n1,
                    newLines := n2, lines := ls }] } := by
  unfold parseFileBlock
  rw [List.foldl_cons]
  have hstep : scanDiffLine initDiffScanState hdr =
      ⟨[], [], [], [], some ⟨o1, o2, n1, n2, []⟩, 0, true⟩ := by
    simp [scanDiffLine, initDiffScanState, hh, hp]
  rw [hstep, scan_no_header_open ls hl _ ⟨o1, o2, n1, n2, []⟩ rfl rfl]
  simp [finishDiffScan, List.replicate_succ]

/-- Witness for the amended C5 at the counterexample block. -/
theorem claim_C5_amended_witness :
    parseFileBlock "f" ("@@ -1 +1 @@" :: ["+ab", "-cd", " ef"]) =
      { file := "f"
        additions := additionsOfLines ["+ab", "-cd", " ef"]
        deletions := deletionsOfLines ["+ab", "-cd", " ef"]
        context := contextOfLines ["+ab", "-cd", " ef"]
        hunks := [{ oldStart := 1, oldLines := 1, newStart := 1, newLines := 1,
                    lines := ["+ab", "-cd", " ef"] }] } :=
  claim_C5_amended "f" "@@ -1 +1 @@" 1 1 1 1 ["+ab", "-cd", " ef"]
    rfl rfl (by decide)

theorem skipWs_cons_of_not_ws {c : Char} (h : isJsonWs c = false) (cs : List Char) :
    skipWs (c :: cs) = c :: cs := by
  simp [skipWs, List.dropWhile_cons, h]

theorem takeDigits_append (xs ys : List Char) (hxs : ∀ c ∈ xs, c.isDigit = true)
    (hys : HeadNotDigit ys) : takeDigits (xs ++ ys) = (xs, ys) := by
  induction xs with
  | nil =>
    cases ys with
    | nil => rfl
    | cons y ys' =>
      simp only [HeadNotDigit] at hys
      simp [takeDigits, List.takeWhile_cons, List.dropWhile_cons, hys]
  | cons x xs' ih =>
    have hx := hxs x (by simp)
    have hxs' := fun c hc => hxs c (List.mem_cons_of_mem _ hc)
    have hih := ih hxs'
    simp only [takeDigits, List.cons_append, List.takeWhile_cons, List.dropWhile_cons,
      hx] at hih ⊢
    simp only [Prod.mk.injEq] at hih
    simp [hih.1, hih.2]

theorem digit_not_special {c : Char} (h : c.isDigit = true) :
    isJsonWs c = false ∧ c ≠ 'n' ∧ c ≠ 't' ∧ c ≠ 'f' ∧ c ≠ '"' ∧ c ≠ '[' ∧
      c ≠ '\x7b' ∧ c ≠ '-' ∧ c ≠ '\n' := by
  refine ⟨?_, ?_, ?_, ?_, ?_, ?_, ?_, ?_, ?_⟩
  · cases hw : isJsonWs c with
    | false => rfl
    | true =>
      exfalso
      simp only [isJsonWs, Bool.or_eq_true, decide_eq_true_eq] at hw
      rcases hw with ((h1 | h1) | h1) | h1 <;> subst h1 <;>
        exact absurd h (by decide)
  all_goals (intro he; subst he; exact absurd h (by decide))

theorem natDigitsFuel_congr :
    ∀ (f1 : Nat), ∀ (f2 n : Nat), n < f1 → n < f2 →
      natDigitsFuel f1 n = natDigitsFuel f2 n := by
  intro f1
  induction f1 with
  | zero => intro f2 n h1; omega
  | succ g1 ih =>
    intro f2 n h1 h2
    cases f2 with
    | zero => omega
    | succ g2 =>
      simp only [natDigitsFuel]
      by_cases hn : n < 10
      · simp [hn]
      · rw [if_neg hn, if_neg hn]
        have hdn : n / 10 < n := Nat.div_lt_self (by omega) (by omega)
        rw [ih g2 (n / 10) (by omega) (by omega)]

theorem natDigits_unfold (n : Nat) :
    natDigits n = if n < 10 then [Char.ofNat (48 + n)]
      else natDigits (n / 10) ++ [Char.ofNat (48 + n % 10)] := by
  unfold natDigits
  rw [show natDigitsFuel (n + 1) n =
    (if n < 10 then [Char.ofNat (48 + n)]
      else natDigitsFuel n (n / 10) ++ [Char.ofNat (48 + n % 10)]) from rfl]
  by_cases hn : n < 10
  · simp [hn]
  · rw [if_neg hn, if_neg hn]
    have hdn : n / 10 < n := Nat.div_lt_self (by omega) (by omega)
    rw [natDigitsFuel_congr n (n / 10 + 1) (n / 10) hdn (by omega)]

theorem digitsVal_append_one (xs : List Char) (d : Char) :
    digitsVal (xs ++ [d]) = digitsVal xs * 10 + (d.toNat - 48) := by
  simp [digitsVal, List.foldl_append]

theorem digitsVal_natDigits (n : Nat) : digitsVal (natDigits n) = n := by
  induction n using Nat.strong_induction_on with
  | _ n hrec =>
    rw [natDigits_unfold]
    by_cases hn : n < 10
    · rw [if_pos hn]
      interval_cases n <;> decide
    · rw [if_neg hn, digitsVal_append_one]
      have hd : n / 10 < n := Nat.div_lt_self (by omega) (by omega)
      rw [hrec (n / 10) hd]
      have hm : n % 10 < 10 := Nat.mod_lt _ (by omega)
      have hc : (Char.ofNat (48 + n % 10)).toNat - 48 = n % 10 := by
        set k := n % 10 with hk
        interval_cases k <;> decide
      rw [hc]
      omega

theorem natDigits_all_digit (n : Nat) : ∀ c ∈ natDigits n, c.isDigit = true := by
  induction n using Nat.strong_induction_on with
  | _ n hrec =>
    rw [natDigits_unfold]
    by_cases hn : n < 10
    · rw [if_pos hn]
      intro c hc
      simp only [List.mem_singleton] at hc
      subst hc
      interval_cases n <;> decide
    · rw [if_neg hn]
      intro c hc
      rcases List.mem_append.mp hc with hc | hc
      · exact hrec (n / 10) (Nat.div_lt_self (by omega) (by omega)) c hc
      · simp only [List.mem_singleton] at hc
        subst hc
        have hm : n % 10 < 10 := Nat.mod_lt _ (by omega)
        set k := n % 10 with hk
        interval_cases k <;> decide

theorem natDigits_ne_nil (n : Nat) : natDigits n ≠ [] := by
  rw [natDigits_unfold]
  by_cases hn : n < 10 <;> simp [hn]

theorem natDigits_head_ne_zero :
    ∀ (n : Nat), n ≠ 0 → ∀ (c : Char) (cs : List Char),
      natDigits n = c :: cs → c ≠ '0' := by
  intro n
  induction n using Nat.strong_induction_on with
  | _ n hrec =>
    intro hn0 c cs hnd
    rw [natDigits_unfold] at hnd
    by_cases hn : n < 10
    · rw [if_pos hn] at hnd
      simp only [List.cons.injEq] at hnd
      obtain ⟨hc, -⟩ := hnd
      subst hc
      interval_cases n <;> first | omega | decide
    · rw [if_neg hn] at hnd
      cases hnd2 : natDigits (n / 10) with
      | nil => exact absurd hnd2 (natDigits_ne_nil _)
      | cons c0 cs0 =>
        rw [hnd2, List.cons_append] at hnd
        simp only [List.cons.injEq] at hnd
        obtain ⟨hc, -⟩ := hnd
        subst hc
        exact hrec (n / 10) (Nat.div_lt_self (by omega) (by omega)) (by omega) c0 cs0 hnd2

theorem validDigitRun_natDigits (n : Nat) : validDigitRun (natDigits n) = true := by
  rw [natDigits_unfold]
  by_cases hn : n < 10
  · simp [hn, validDigitRun]
  · rw [if_neg hn]
    cases hnd2 : natDigits (n / 10) with
    | nil => exact absurd hnd2 (natDigits_ne_nil _)
    | cons c0 cs0 =>
      have hc0 : c0 ≠ '0' :=
        natDigits_head_ne_zero (n / 10) (by omega) c0 cs0 hnd2
      cases cs0 with
      | nil => simp [validDigitRun, bne_iff_ne, hc0]
      | cons c1 cs1 => simp [validDigitRun, bne_iff_ne, hc0]

theorem isDigit_ne_minus {c : Char} (h : c.isDigit = true) : c ≠ '-' := by
  intro he
  subst he
  simp at h

theorem parseNumberAt_print (n : Int) (rest : List Char) (hrest : HeadNotDigit rest) :
    parseNumberAt (printIntChars n ++ rest) = some (n, rest) := by
  by_cases hn : n < 0
  · have hp : printIntChars n = '-' :: natDigits n.natAbs := by
      simp [printIntChars, hn]
    rw [hp, List.cons_append]
    simp only [parseNumberAt, if_pos rfl]
    rw [takeDigits_append _ _ (natDigits_all_digit _) hrest]
    simp only [validDigitRun_natDigits, digitsVal_natDigits, if_true,
      Option.some.injEq, Prod.mk.injEq]
    exact ⟨by omega, trivial⟩
  · have hp : printIntChars n = natDigits n.toNat := by
      simp [printIntChars, hn]
    rw [hp]
    cases hnd : natDigits n.toNat with
    | nil => exact absurd hnd (natDigits_ne_nil _)
    | cons c0 cs0 =>
      have hdig : c0.isDigit = true := natDigits_all_digit _ c0 (by rw [hnd]; simp)
      have hm : c0 ≠ '-' := isDigit_ne_minus hdig
      rw [List.cons_append]
      simp only [parseNumberAt, if_neg hm]
      rw [← List.cons_append, ← hnd,
        takeDigits_append _ _ (natDigits_all_digit _) hrest]
      simp [validDigitRun_natDigits, digitsVal_natDigits]
      omega

theorem hexVal_hexDigit : ∀ k, k < 16 →
    hexVal (escapeCharJson.nibbleChar k) = some k := by decide

theorem parseStringBody_quote (X : List Char) :
    parseStringBody ('"' :: X) = some ([], X) := by
  rw [parseStringBody.eq_def]
  simp

theorem parseStringBody_u (a b x y : Char) (X : List Char) :
    parseStringBody ('\\' :: 'u' :: a :: b :: x :: y :: X) =
      (match hexVal a, hexVal b, hexVal x, hexVal y with
        | some va, some vb, some vx, some vy =>
          (parseStringBody X).map
            (fun p => (Char.ofNat (((va * 16 + vb) * 16 + vx) * 16 + vy) :: p.1, p.2))
        | _, _, _, _ => none) := by
  rw [parseStringBody.eq_def]
  simp

theorem parseStringBody_esc (e : Char) (he : e ≠ 'u') (X : List Char) :
    parseStringBody ('\\' :: e :: X) =
      (match escapeTranslate e with
        | some ec => (parseStringBody X).map (fun p => (ec :: p.1, p.2))
        | none => none) := by
  rw [parseStringBody.eq_def]
  simp [he]

theorem parseStringBody_plain (c : Char) (h1 : c ≠ '"') (h2 : c ≠ '\\')
    (h3 : ¬(c.toNat < 32)) (X : List Char) :
    parseStringBody (c :: X) = (parseStringBody X).map (fun p => (c :: p.1, p.2)) := by
  rw [parseStringBody.eq_def]
  simp [h1, h2, h3]

theorem parseStringBody_escape (cs rest : List Char) :
    parseStringBody (escapeChars cs ++ '"' :: rest) = some (cs, rest) := by
  induction cs with
  | nil =>
    show parseStringBody ('"' :: rest) = _
    rw [parseStringBody_quote]
  | cons c cs' ih =>
    have hesc : escapeChars (c :: cs') = escapeCharJson c ++ escapeChars cs' := by
      simp [escapeChars]
    rw [hesc, List.append_assoc]
    unfold escapeCharJson
    split_ifs with h1 h2 h3
    · subst h1
      show parseStringBody ('\\' :: '"' :: (escapeChars cs' ++ '"' :: rest)) = _
      rw [parseStringBody_esc '"' (by decide), ih]
      rfl
    · subst h2
      show parseStringBody ('\\' :: '\\' :: (escapeChars cs' ++ '"' :: rest)) = _
      rw [parseStringBody_esc '\\' (by decide), ih]
      rfl
    · show parseStringBody ('\\' :: 'u' :: '0' :: '0' ::
        escapeCharJson.nibbleChar (c.toNat / 16) ::
        escapeCharJson.nibbleChar (c.toNat % 16) ::
        (escapeChars cs' ++ '"' :: rest)) = _
      rw [parseStringBody_u]
      simp only [show hexVal '0' = some 0 from rfl,
        hexVal_hexDigit (c.toNat / 16) (by omega),
        hexVal_hexDigit (c.toNat % 16) (by omega)]
      rw [show ((0 * 16 + 0) * 16 + c.toNat / 16) * 16 + c.toNat % 16 = c.toNat by
        omega]
      rw [Char.ofNat_toNat, ih]
      rfl
    · show parseStringBody (c :: (escapeChars cs' ++ '"' :: rest)) = _
      rw [parseStringBody_plain c h1 h2 h3, ih]
      rfl

theorem isPrefixOf_cons_ne {a b : Char} (h : a ≠ b) (as bs : List Char) :
    (a :: as).isPrefixOf (b :: bs) = false := by
  simp [List.isPrefixOf, h]

theorem not_prefix_null {c : Char} (h : c ≠ 'n') (X : List Char) :
    ("null".toList.isPrefixOf (c :: X)) = false := by
  rw [show "null".toList = 'n' :: ['u', 'l', 'l'] from rfl]
  exact isPrefixOf_cons_ne (Ne.symm h) _ _

theorem not_prefix_true {c : Char} (h : c ≠ 't') (X : List Char) :
    ("true".toList.isPrefixOf (c :: X)) = false := by
  rw [show "true".toList = 't' :: ['r', 'u', 'e'] from rfl]
  exact isPrefixOf_cons_ne (Ne.symm h) _ _

theorem not_prefix_false {c : Char} (h : c ≠ 'f') (X : List Char) :
    ("false".toList.isPrefixOf (c :: X)) = false := by
  rw [show "false".toList = 'f' :: ['a', 'l', 's', 'e'] from rfl]
  exact isPrefixOf_cons_ne (Ne.symm h) _ _

theorem parseJsonValue_head (fuel : Nat) (c : Char) (X : List Char)
    (hws : isJsonWs c = false) (hn : c ≠ 'n') (ht : c ≠ 't') (hf : c ≠ 'f') :
    parseJsonValue (fuel + 1) (c :: X) =
      (if c = '"' then
        (parseStringBody X).map (fun p => (Json.str (String.mk p.1), p.2))
      else if c = '[' then
        (parseJsonElems fuel X).map (fun p => (Json.arr p.1, p.2))
      else if c = '\x7b' then
        (parseJsonFields fuel X).map (fun p => (Json.obj p.1, p.2))
      else (parseNumberAt (c :: X)).map (fun p => (Json.num p.1, p.2))) := by
  rw [parseJsonValue]
  simp only [skipWs_cons_of_not_ws hws, not_prefix_null hn, not_prefix_true ht,
    not_prefix_false hf, Bool.false_eq_true, if_false]

theorem parseJsonElems_cons (fuel : Nat) (c : Char) (X : List Char)
    (hws : isJsonWs c = false) :
    parseJsonElems (fuel + 1) (c :: X) =
      (if c = ']' then some ([], X) else parseJsonElemsRest fuel (c :: X)) := by
  rw [parseJsonElems]
  simp only [skipWs_cons_of_not_ws hws]

theorem parseJsonElemsRest_succ (fuel : Nat) (cs : List Char) :
    parseJsonElemsRest (fuel + 1) cs =
      (match parseJsonValue fuel cs with
        | none => none
        | some (v, r1) =>
          match skipWs r1 with
          | [] => none
          | c :: r2 =>
            if c = ',' then
              (parseJsonElemsRest fuel r2).map (fun p => (v :: p.1, p.2))
            else if c = ']' then some ([v], r2)
            else none) := by
  rw [parseJsonElemsRest]

theorem parseJsonFields_cons (fuel : Nat) (c : Char) (X : List Char)
    (hws : isJsonWs c = false) :
    parseJsonFields (fuel + 1) (c :: X) =
      (if c = '\x7d' then some ([], X) else parseJsonFieldsRest fuel (c :: X)) := by
  rw [parseJsonFields]
  simp only [skipWs_cons_of_not_ws hws]

theorem parseJsonFieldsRest_succ (fuel : Nat) (cs : List Char) :
    parseJsonFieldsRest (fuel + 1) cs =
      (match cs with
        | [] => none
        | c :: rest =>
          if c = '"' then
            match parseStringBody rest with
            | none => none
            | some (k, r1) =>
              match skipWs r1 with
              | [] => none
              | c2 :: r2 =>
                if c2 = ':' then
                  match parseJsonValue fuel r2 with
                  | none => none
                  | some (v, r3) =>
                    match skipWs r3 with
                    | [] => none
                    | c3 :: r4 =>
                      if c3 = ',' then
                        (parseJsonFieldsRest fuel (skipWs r4)).map
                          (fun p => ((String.mk k, v) :: p.1, p.2))
                      else if c3 = '\x7d' then some ([(String.mk k, v)], r4)
                      else none
                else none
          else none) := by
  rw [parseJsonFieldsRest.eq_def]

theorem parsePrint_str (s : String) (fuel : Nat) (rest : List Char) :
    parseJsonValue (fuel + 1) (printJsonChars (.str s) ++ rest) =
      some (.str s, rest) := by
  have hpr : printJsonChars (.str s) ++ rest =
      '"' :: (escapeChars s.toList ++ '"' :: rest) := by
    simp [printJsonChars]
  rw [hpr, parseJsonValue_head fuel '"' _ (by decide) (by decide) (by decide)
    (by decide)]
  rw [if_pos rfl, parseStringBody_escape]
  rfl

theorem parsePrint_num (n : Int) (fuel : Nat) (rest : List Char)
    (hrest : HeadNotDigit rest) :
    parseJsonValue (fuel + 1) (printJsonChars (.num n) ++ rest) =
      some (.num n, rest) := by
  have hpr : printJsonChars (.num n) = printIntChars n := by simp [printJsonChars]
  rw [hpr]
  by_cases hn : n < 0
  · have hp : printIntChars n = '-' :: natDigits n.natAbs := by
      simp [printIntChars, hn]
    rw [hp, List.cons_append,
      parseJsonValue_head fuel '-' _ (by decide) (by decide) (by decide) (by decide),
      if_neg (by decide), if_neg (by decide), if_neg (by decide),
      ← List.cons_append, ← hp, parseNumberAt_print n rest hrest]
    rfl
  · have hp : printIntChars n = natDigits n.toNat := by
      simp [printIntChars, hn]
    rw [hp]
    cases hnd : natDigits n.toNat with
    | nil => exact absurd hnd (natDigits_ne_nil _)
    | cons c0 cs0 =>
      have hdig : c0.isDigit = true := natDigits_all_digit _ c0 (by rw [hnd]; simp)
      obtain ⟨hws, hcn, hct, hcf, hcq, hcb, hcbr, hcm, -⟩ := digit_not_special hdig
      rw [List.cons_append,
        parseJsonValue_head fuel c0 _ hws hcn hct hcf,
        if_neg hcq, if_neg hcb, if_neg hcbr,
        ← List.cons_append, ← hnd, ← hp, parseNumberAt_print n rest hrest]
      rfl

theorem parseJsonFieldsRest_quote (fuel : Nat) (X : List Char) :
    parseJsonFieldsRest (fuel + 1) ('"' :: X) =
      (match parseStringBody X with
        | none => none
        | some (k, r1) =>
          match skipWs r1 with
          | [] => none
          | c2 :: r2 =>
            if c2 = ':' then
              match parseJsonValue fuel r2 with
              | none => none
              | some (v, r3) =>
                match skipWs r3 with
                | [] => none
                | c3 :: r4 =>
                  if c3 = ',' then
                    (parseJsonFieldsRest fuel (skipWs r4)).map
                      (fun p => ((String.mk k, v) :: p.1, p.2))
                  else if c3 = '\x7d' then some ([(String.mk k, v)], r4)
                  else none
            else none
        ) := by
  rw [parseJsonFieldsRest_succ]
  simp

theorem printFieldsChars_cons_head (a : String × Json) (l : List (String × Json)) :
    ∃ Y, printFieldsChars (a :: l) = '"' :: Y := by
  obtain ⟨k, v⟩ := a
  cases l with
  | nil =>
    exact ⟨escapeChars k.data ++ '"' :: ':' :: printJsonChars v,
      by simp [printFieldsChars]⟩
  | cons b l' =>
    exact ⟨escapeChars k.data ++ '"' ::
      ':' :: (printJsonChars v ++ ',' :: printFieldsChars (b :: l')),
      by simp [printFieldsChars]⟩

theorem parseFieldsRest_print :
    ∀ (fs : List (String × Json)), fs ≠ [] →
      (∀ kv ∈ fs, ∀ (f : Nat) (r : List Char), HeadNotDigit r →
        parseJsonValue (f + 1) (printJsonChars kv.2 ++ r) = some (kv.2, r)) →
      ∀ (fuel : Nat), fs.length + 1 ≤ fuel → ∀ (rest : List Char),
        parseJsonFieldsRest fuel (printFieldsChars fs ++ '\x7d' :: rest) =
          some (fs, rest) := by
  intro fs
  induction fs with
  | nil => intro h; exact absurd rfl h
  | cons kv fs' ih =>
    intro _ hok fuel hfuel rest
    simp only [List.length_cons] at hfuel
    obtain ⟨k, v⟩ := kv
    obtain ⟨g, rfl⟩ : ∃ g, fuel = g + 1 := ⟨fuel - 1, by omega⟩
    obtain ⟨g2, rfl⟩ : ∃ g2, g = g2 + 1 := ⟨g - 1, by omega⟩
    have hv : ∀ (f : Nat) (r : List Char), HeadNotDigit r →
        parseJsonValue (f + 1) (printJsonChars v ++ r) = some (v, r) :=
      hok (k, v) (by simp)
    cases fs' with
    | nil =>
      have hpr : printFieldsChars [(k, v)] ++ '\x7d' :: rest =
          '"' :: (escapeChars k.toList ++
            '"' :: (':' :: (printJsonChars v ++ '\x7d' :: rest))) := by
        simp [printFieldsChars]
      rw [hpr, parseJsonFieldsRest_quote, parseStringBody_escape]
      simp only [skipWs_cons_of_not_ws (show isJsonWs ':' = false from by decide)]
      rw [hv g2 ('\x7d' :: rest) (by show ('\x7d').isDigit = false; decide)]
      simp only [skipWs_cons_of_not_ws
        (show isJsonWs '\x7d' = false from by decide)]
      simp
    | cons f2 fs'' =>
      have hpr : printFieldsChars ((k, v) :: f2 :: fs'') ++ '\x7d' :: rest =
          '"' :: (escapeChars k.toList ++
            '"' :: (':' :: (printJsonChars v ++
              ',' :: (printFieldsChars (f2 :: fs'') ++ '\x7d' :: rest)))) := by
        simp [printFieldsChars]
      rw [hpr, parseJsonFieldsRest_quote, parseStringBody_escape]
      simp only [skipWs_cons_of_not_ws (show isJsonWs ':' = false from by decide)]
      rw [hv g2 (',' :: (printFieldsChars (f2 :: fs'') ++ '\x7d' :: rest))
        (by show (',').isDigit = false; decide)]
      simp only [skipWs_cons_of_not_ws (show isJsonWs ',' = false from by decide)]
      obtain ⟨Y, hY⟩ := printFieldsChars_cons_head f2 fs''
      rw [hY, List.cons_append]
      simp only [skipWs_cons_of_not_ws (show isJsonWs '"' = false from by decide)]
      rw [← List.cons_append, ← hY]
      rw [ih (by simp) (fun a ha => hok a (List.mem_cons_of_mem _ ha))
        (g2 + 1) (by simp only [List.length_cons] at hfuel ⊢; omega) rest]
      simp

theorem parsePrint_obj (fs : List (String × Json)) (hne : fs ≠ [])
    (hok : ∀ kv ∈ fs, ∀ (f : Nat) (r : List Char), HeadNotDigit r →
      parseJsonValue (f + 1) (printJsonChars kv.2 ++ r) = some (kv.2, r))
    (fuel : Nat) (hf : fs.length + 2 ≤ fuel) (rest : List Char) :
    parseJsonValue (fuel + 1) (printJsonChars (.obj fs) ++ rest) =
      some (.obj fs, rest) := by
  have hpr : printJsonChars (.obj fs) ++ rest =
      '\x7b' :: (printFieldsChars fs ++ '\x7d' :: rest) := by
    simp [printJsonChars]
  rw [hpr, parseJsonValue_head fuel '\x7b' _ (by decide) (by decide) (by decide)
    (by decide), if_neg (by decide), if_neg (by decide), if_pos rfl]
  obtain ⟨g, rfl⟩ : ∃ g, fuel = g + 1 := ⟨fuel - 1, by omega⟩
  cases fs with
  | nil => exact absurd rfl hne
  | cons kv fs' =>
    obtain ⟨Y, hY⟩ := printFieldsChars_cons_head kv fs'
    rw [hY, List.cons_append,
      parseJsonFields_cons g '"' _ (by decide), if_neg (by decide),
      ← List.cons_append, ← hY]
    rw [parseFieldsRest_print (kv :: fs') (by simp) hok g
      (by simp at hf ⊢; omega) rest]
    rfl

theorem parseElemsRest_print (B : Nat) :
    ∀ (es : List Json), es ≠ [] →
      (∀ e ∈ es, ∀ (f : Nat), B ≤ f → ∀ (r : List Char), HeadNotDigit r →
        parseJsonValue f (printJsonChars e ++ r) = some (e, r)) →
      ∀ (fuel : Nat), B + es.length ≤ fuel → ∀ (rest : List Char),
        parseJsonElemsRest fuel (printElemsChars es ++ ']' :: rest) =
          some (es, rest) := by
  intro es
  induction es with
  | nil => intro h; exact absurd rfl h
  | cons e es' ih =>
    intro _ hok fuel hfuel rest
    simp only [List.length_cons] at hfuel
    obtain ⟨g, rfl⟩ : ∃ g, fuel = g + 1 := ⟨fuel - 1, by omega⟩
    have heok := hok e (by simp)
    cases es' with
    | nil =>
      have hpr : printElemsChars [e] ++ ']' :: rest =
          printJsonChars e ++ ']' :: rest := by
        simp [printElemsChars]
      rw [hpr, parseJsonElemsRest_succ,
        heok g (by omega) (']' :: rest)
          (by show (']').isDigit = false; decide)]
      simp only [skipWs_cons_of_not_ws (show isJsonWs ']' = false from by decide)]
      simp
    | cons e2 es'' =>
      have hpr : printElemsChars (e :: e2 :: es'') ++ ']' :: rest =
          printJsonChars e ++
            ',' :: (printElemsChars (e2 :: es'') ++ ']' :: rest) := by
        simp [printElemsChars]
      rw [hpr, parseJsonElemsRest_succ,
        heok g (by omega)
          (',' :: (printElemsChars (e2 :: es'') ++ ']' :: rest))
          (by show (',').isDigit = false; decide)]
      simp only [skipWs_cons_of_not_ws (show isJsonWs ',' = false from by decide)]
      rw [ih (by simp) (fun a ha => hok a (List.mem_cons_of_mem _ ha)) g
        (by simp only [List.length_cons] at hfuel ⊢; omega) rest]
      simp

theorem commentToJson_obj_none (c : ReviewComment) (hs : c.suggestion = none) :
    commentToJson c =
      .obj [("file", .str c.file), ("line", .num c.line),
        ("message", .str c.message), ("severity", .str c.severity),
        ("category", .str c.category)] := by
  simp [commentToJson, hs]

theorem commentToJson_obj_some (c : ReviewComment) (s : String)
    (hs : c.suggestion = some s) :
    commentToJson c =
      .obj [("file", .str c.file), ("line", .num c.line),
        ("message", .str c.message), ("severity", .str c.severity),
        ("category", .str c.category), ("suggestion", .str s)] := by
  simp [commentToJson, hs]

theorem parsePrint_comment (c : ReviewComment) :
    ∀ (fuel : Nat), 9 ≤ fuel → ∀ (rest : List Char),
      parseJsonValue fuel (printJsonChars (commentToJson c) ++ rest) =
        some (commentToJson c, rest) := by
  intro fuel hf rest
  obtain ⟨g, rfl⟩ : ∃ g, fuel = g + 1 := ⟨fuel - 1, by omega⟩
  cases hs : c.suggestion with
  | none =>
    rw [commentToJson_obj_none c hs]
    refine parsePrint_obj _ (by simp) ?_ g (by simp; omega) rest
    intro kv hkv f r hr
    simp only [List.mem_cons, List.not_mem_nil, or_false] at hkv
    rcases hkv with h | h | h | h | h <;> subst h <;>
      first
        | exact parsePrint_str _ f r
        | exact parsePrint_num _ f r hr
  | some s =>
    rw [commentToJson_obj_some c s hs]
    refine parsePrint_obj _ (by simp) ?_ g (by simp; omega) rest
    intro kv hkv f r hr
    simp only [List.mem_cons, List.not_mem_nil, or_false] at hkv
    rcases hkv with h | h | h | h | h | h <;> subst h <;>
      first
        | exact parsePrint_str _ f r
        | exact parsePrint_num _ f r hr

theorem commentToJson_is_obj (c : ReviewComment) :
    ∃ fs, commentToJson c = .obj fs ∧ fs ≠ [] := by
  cases hs : c.suggestion with
  | none => exact ⟨_, commentToJson_obj_none c hs, by simp⟩
  | some s => exact ⟨_, commentToJson_obj_some c s hs, by simp⟩

theorem printElemsChars_comments_head (c0 : ReviewComment) (cs' : List ReviewComment) :
    ∃ Y, printElemsChars ((c0 :: cs').map commentToJson) = '\x7b' :: Y := by
  obtain ⟨fs, hfs, hne⟩ := commentToJson_is_obj c0
  have hobj : printJsonChars (commentToJson c0) =
      '\x7b' :: (printFieldsChars fs ++ ['\x7d']) := by
    rw [hfs]
    simp [printJsonChars]
  cases cs' with
  | nil =>
    exact ⟨printFieldsChars fs ++ ['\x7d'], by simp [printElemsChars, hobj]⟩
  | cons c1 cs'' =>
    exact ⟨(printFieldsChars fs ++ ['\x7d']) ++
      ',' :: printElemsChars ((c1 :: cs'').map commentToJson),
      by simp [printElemsChars, hobj]⟩

theorem parsePrint_commentsArr (cs : List ReviewComment) :
    ∀ (fuel : Nat), 11 + cs.length ≤ fuel → ∀ (rest : List Char),
      parseJsonValue fuel (printJsonChars (commentsToJson cs) ++ rest) =
        some (commentsToJson cs, rest) := by
  intro fuel hf rest
  obtain ⟨g, rfl⟩ : ∃ g, fuel = g + 1 := ⟨fuel - 1, by omega⟩
  have hpr : printJsonChars (commentsToJson cs) ++ rest =
      '[' :: (printElemsChars (cs.map commentToJson) ++ ']' :: rest) := by
    simp [commentsToJson, printJsonChars]
  rw [hpr, parseJsonValue_head g '[' _ (by decide) (by decide) (by decide)
    (by decide), if_neg (by decide), if_pos rfl]
  obtain ⟨g2, rfl⟩ : ∃ g2, g = g2 + 1 := ⟨g - 1, by omega⟩
  cases cs with
  | nil =>
    rw [show printElemsChars (List.map commentToJson []) = ([] : List Char) from
      by simp [printElemsChars]]
    rw [List.nil_append, parseJsonElems_cons g2 ']' rest (by decide), if_pos rfl]
    simp [commentsToJson]
  | cons c0 cs' =>
    obtain ⟨Y, hY⟩ := printElemsChars_comments_head c0 cs'
    rw [hY, List.cons_append, parseJsonElems_cons g2 '\x7b' _ (by decide),
      if_neg (by decide), ← List.cons_append, ← hY]
    rw [parseElemsRest_print 9 ((c0 :: cs').map commentToJson) (by simp)
      (fun e he f hf9 r hr => by
        obtain ⟨a, -, rfl⟩ := List.mem_map.mp he
        obtain ⟨f2, rfl⟩ : ∃ f2, f = f2 + 1 := ⟨f - 1, by omega⟩
        exact parsePrint_comment a (f2 + 1) (by omega) r)
      g2 (by simp only [List.length_map, List.length_cons] at hf ⊢; omega) rest]
    rfl

theorem printComment_len (c : ReviewComment) :
    9 ≤ (printJsonChars (commentToJson c)).length := by
  cases hs : c.suggestion with
  | none =>
    rw [commentToJson_obj_none c hs]
    simp [printJsonChars, printFieldsChars]
    omega
  | some s =>
    rw [commentToJson_obj_some c s hs]
    simp [printJsonChars, printFieldsChars]
    omega

theorem printElems_comments_len (cs : List ReviewComment) (h : cs ≠ []) :
    8 + cs.length ≤ (printElemsChars (cs.map commentToJson)).length := by
  induction cs with
  | nil => exact absurd rfl h
  | cons c0 cs' ih =>
    cases cs' with
    | nil =>
      have h9 := printComment_len c0
      simp only [List.map_cons, List.map_nil, printElemsChars, List.length_cons,
        List.length_nil]
      omega
    | cons c1 cs'' =>
      have h9 := printComment_len c0
      have hih := ih (by simp)
      rw [show ((c0 :: c1 :: cs'').map commentToJson) =
        commentToJson c0 :: ((c1 :: cs'').map commentToJson) from rfl]
      rw [show printElemsChars
          (commentToJson c0 :: ((c1 :: cs'').map commentToJson)) =
        printJsonChars (commentToJson c0) ++
          ',' :: printElemsChars ((c1 :: cs'').map commentToJson) from by
        rw [show ((c1 :: cs'').map commentToJson) =
          commentToJson c1 :: (cs''.map commentToJson) from rfl]
        simp [printElemsChars]]
      simp only [List.length_append, List.length_cons] at hih ⊢
      omega

theorem jsonParse_printComments (cs : List ReviewComment) :
    jsonParse (printComments cs) = some (commentsToJson cs) := by
  cases cs with
  | nil => rfl
  | cons c0 cs' =>
    have htl : (printComments (c0 :: cs')).toList =
        printJsonChars (commentsToJson (c0 :: cs')) := rfl
    have hlen : 11 + (c0 :: cs').length ≤
        (printJsonChars (commentsToJson (c0 :: cs'))).length + 1 := by
      have hpr : printJsonChars (commentsToJson (c0 :: cs')) =
          '[' :: (printElemsChars ((c0 :: cs').map commentToJson) ++ [']']) := by
        simp [commentsToJson, printJsonChars]
      have he := printElems_comments_len (c0 :: cs') (by simp)
      rw [hpr]
      simp only [List.length_cons, List.length_append, List.length_nil] at he ⊢
      omega
    have key := parsePrint_commentsArr (c0 :: cs')
      ((printJsonChars (commentsToJson (c0 :: cs'))).length + 1) hlen []
    rw [List.append_nil] at key
    unfold jsonParse
    rw [htl]
    simp [key, skipWs]

theorem nibbleChar_ne_newline : ∀ k < 16, escapeCharJson.nibbleChar k ≠ '\n' := by
  decide

theorem digitChar_ne_newline : ∀ m < 10, Char.ofNat (48 + m) ≠ '\n' := by
  decide

theorem nl_escapeCharJson (c : Char) : '\n' ∉ escapeCharJson c := by
  unfold escapeCharJson
  split_ifs with h1 h2 h3
  · decide
  · decide
  · intro hm
    simp only [List.mem_cons, List.not_mem_nil, or_false] at hm
    rcases hm with h | h | h | h | h | h
    · exact absurd h (by decide)
    · exact absurd h (by decide)
    · exact absurd h (by decide)
    · exact absurd h (by decide)
    · exact nibbleChar_ne_newline (c.toNat / 16) (by omega) h.symm
    · exact nibbleChar_ne_newline (c.toNat % 16) (by omega) h.symm
  · intro hm
    simp only [List.mem_cons, List.not_mem_nil, or_false] at hm
    subst hm
    exact h3 (by decide)

theorem nl_escapeChars (cs : List Char) : '\n' ∉ escapeChars cs := by
  induction cs with
  | nil => simp [escapeChars]
  | cons c cs' ih =>
    intro hm
    rw [show escapeChars (c :: cs') = escapeCharJson c ++ escapeChars cs' from rfl]
      at hm
    rcases List.mem_append.mp hm with h | h
    · exact nl_escapeCharJson c h
    · exact ih h

theorem nl_natDigitsFuel (fuel : Nat) : ∀ n, '\n' ∉ natDigitsFuel fuel n := by
  induction fuel with
  | zero => intro n; simp [natDigitsFuel]
  | succ f ih =>
    intro n hm
    rw [natDigitsFuel] at hm
    by_cases hn : n < 10
    · rw [if_pos hn] at hm
      simp only [List.mem_cons, List.not_mem_nil, or_false] at hm
      exact digitChar_ne_newline n hn hm.symm
    · rw [if_neg hn] at hm
      rcases List.mem_append.mp hm with h | h
      · exact ih (n / 10) h
      · simp only [List.mem_cons, List.not_mem_nil, or_false] at h
        exact digitChar_ne_newline (n % 10) (by omega) h.symm

theorem nl_printIntChars (n : Int) : '\n' ∉ printIntChars n := by
  unfold printIntChars natDigits
  split_ifs with h
  · intro hm
    simp only [List.mem_cons] at hm
    rcases hm with h' | h'
    · exact absurd h' (by decide)
    · exact nl_natDigitsFuel _ _ h'
  · exact nl_natDigitsFuel _ _

theorem nl_printStr (s : String) : '\n' ∉ printJsonChars (.str s) := by
  intro hm
  rw [show printJsonChars (.str s) = '"' :: (escapeChars s.toList ++ ['"'])
    from rfl] at hm
  simp only [List.mem_cons] at hm
  rcases hm with h | h
  · exact absurd h (by decide)
  · rcases List.mem_append.mp h with h' | h'
    · exact nl_escapeChars s.toList h'
    · simp only [List.mem_cons, List.not_mem_nil, or_false] at h'
      exact absurd h' (by decide)

theorem nl_field (k : String) (v : Json) (hv : '\n' ∉ printJsonChars v) :
    '\n' ∉ '"' :: (escapeChars k.toList ++ '"' :: ':' :: printJsonChars v) := by
  intro hm
  simp only [List.mem_cons] at hm
  rcases hm with h | h
  · exact absurd h (by decide)
  · rcases List.mem_append.mp h with h' | h'
    · exact nl_escapeChars k.toList h'
    · simp only [List.mem_cons] at h'
      rcases h' with h'' | h'' | h''
      · exact absurd h'' (by decide)
      · exact absurd h'' (by decide)
      · exact hv h''

theorem nl_printComment (c : ReviewComment) :
    '\n' ∉ printJsonChars (commentToJson c) := by
  have hfields : ∀ fs : List (String × Json),
      (∀ kv ∈ fs, '\n' ∉ printJsonChars kv.2) → '\n' ∉ printFieldsChars fs := by
    intro fs
    induction fs with
    | nil => intro _; simp [printFieldsChars]
    | cons kv fs' ih =>
      intro hall hm
      obtain ⟨k, v⟩ := kv
      cases fs' with
      | nil =>
        rw [show printFieldsChars [(k, v)] =
          '"' :: (escapeChars k.toList ++ '"' :: ':' :: printJsonChars v)
          from rfl] at hm
        exact nl_field k v (hall (k, v) (by simp)) hm
      | cons f2 fs'' =>
        rw [show printFieldsChars ((k, v) :: f2 :: fs'') =
          ('"' :: (escapeChars k.toList ++ '"' :: ':' :: printJsonChars v)) ++
            ',' :: printFieldsChars (f2 :: fs'') from rfl] at hm
        rcases List.mem_append.mp hm with h | h
        · exact nl_field k v (hall (k, v) (by simp)) h
        · simp only [List.mem_cons] at h
          rcases h with h' | h'
          · exact absurd h' (by decide)
          · exact ih (fun kv hkv => hall kv (by simp [hkv])) h'
  obtain ⟨fs, hfs, -⟩ := commentToJson_is_obj c
  rw [hfs]
  intro hm
  rw [show printJsonChars (.obj fs) = '\x7b' :: (printFieldsChars fs ++ ['\x7d'])
    from rfl] at hm
  simp only [List.mem_cons] at hm
  rcases hm with h | h
  · exact absurd h (by decide)
  · rcases List.mem_append.mp h with h' | h'
    · refine hfields fs ?_ h'
      intro kv hkv
      have : ∀ fs0, commentToJson c = .obj fs0 → ∀ kv0 ∈ fs0,
          '\n' ∉ printJsonChars kv0.2 := by
        intro fs0 h0 kv0 hkv0
        cases hs : c.suggestion with
        | none =>
          rw [commentToJson_obj_none c hs] at h0
          cases h0
          simp only [List.mem_cons, List.not_mem_nil, or_false] at hkv0
          rcases hkv0 with h | h | h | h | h <;> subst h <;>
            first
              | exact nl_printStr _
              | exact nl_printIntChars _
        | some s =>
          rw [commentToJson_obj_some c s hs] at h0
          cases h0
          simp only [List.mem_cons, List.not_mem_nil, or_false] at hkv0
          rcases hkv0 with h | h | h | h | h | h <;> subst h <;>
            first
              | exact nl_printStr _
              | exact nl_printIntChars _
      exact this fs hfs kv hkv
    · simp only [List.mem_cons, List.not_mem_nil, or_false] at h'
      exact absurd h' (by decide)

theorem nl_printElems_comments (cs : List ReviewComment) :
    '\n' ∉ printElemsChars (cs.map commentToJson) := by
  induction cs with
  | nil => simp [printElemsChars]
  | cons c0 cs' ih =>
    intro hm
    cases cs' with
    | nil =>
      rw [show printElemsChars ([c0].map commentToJson) =
        printJsonChars (commentToJson c0) from rfl] at hm
      exact nl_printComment c0 hm
    | cons c1 cs'' =>
      rw [show printElemsChars ((c0 :: c1 :: cs'').map commentToJson) =
        printJsonChars (commentToJson c0) ++
          ',' :: printElemsChars ((c1 :: cs'').map commentToJson) from rfl] at hm
      rcases List.mem_append.mp hm with h | h
      · exact nl_printComment c0 h
      · simp only [List.mem_cons] at h
        rcases h with h' | h'
        · exact absurd h' (by decide)
        · exact ih h'

theorem nl_printComments (cs : List ReviewComment) :
    '\n' ∉ (printComments cs).toList := by
  intro hm
  rw [show (printComments cs).toList =
    '[' :: (printElemsChars (cs.map commentToJson) ++ [']']) from rfl] at hm
  simp only [List.mem_cons] at hm
  rcases hm with h | h
  · exact absurd h (by decide)
  · rcases List.mem_append.mp h with h' | h'
    · exact nl_printElems_comments cs h'
    · simp only [List.mem_cons, List.not_mem_nil, or_false] at h'
      exact absurd h' (by decide)

theorem isPrefixOf_append_self (as bs : List Char) :
    as.isPrefixOf (as ++ bs) = true := by
  induction as with
  | nil => simp [List.isPrefixOf]
  | cons a as' ih => simp [List.isPrefixOf, ih]

theorem splitFirstList_self_append (ndl rest : List Char) (h : ndl ≠ []) :
    splitFirstList ndl (ndl ++ rest) = some ([], rest) := by
  cases ndl with
  | nil => exact absurd rfl h
  | cons n0 n' =>
    rw [List.cons_append, splitFirstList, ← List.cons_append,
      if_pos (isPrefixOf_append_self (n0 :: n') rest)]
    rw [List.drop_left]

theorem splitFirstList_skip (n0 : Char) (n' pre l : List Char)
    (hpre : n0 ∉ pre) :
    splitFirstList (n0 :: n') (pre ++ l) =
      (splitFirstList (n0 :: n') l).map (fun p => (pre ++ p.1, p.2)) := by
  induction pre with
  | nil =>
    simp only [List.nil_append]
    cases h : splitFirstList (n0 :: n') l <;> simp
  | cons c pre' ih =>
    have hc : n0 ≠ c := by
      intro h
      exact hpre (by simp [h])
    rw [List.cons_append, splitFirstList,
      if_neg (by rw [isPrefixOf_cons_ne hc]; exact Bool.false_ne_true)]
    rw [ih (fun h => hpre (by simp [h]))]
    cases h : splitFirstList (n0 :: n') l <;> simp

theorem strToList_append (s t : String) :
    (s ++ t).toList = s.toList ++ t.toList := by
  cases s
  cases t
  rfl

theorem extractFenced_wrap (s : String) (hnl : '\n' ∉ s.toList) :
    extractFenced (fenceWrap s) = some s := by
  unfold extractFenced fenceWrap
  rw [strToList_append, strToList_append]
  rw [List.append_assoc]
  rw [splitFirstList_self_append "```json\n".toList _ (by decide)]
  have h2 : splitFirstList "\n```".toList ("\n```".toList) = some ([], []) := rfl
  have h3 : splitFirstList "\n```".toList (s.toList ++ "\n```".toList) =
      some (s.toList, []) := by
    rw [show ("\n```".toList : List Char) = '\n' :: "```".toList from rfl]
    rw [splitFirstList_skip '\n' "```".toList s.toList _ hnl]
    rw [show splitFirstList ('\n' :: "```".toList) ('\n' :: "```".toList) =
      some ([], []) from rfl]
    simp
  simp only [h3]
  rfl

theorem jsonToComment_enc (c : ReviewComment) :
    jsonToComment (commentToJson c) = some c := by
  cases c with
  | mk f l m sv ct sg => cases sg <;> rfl

theorem decodeComments_enc (cs : List ReviewComment) :
    decodeComments (commentsToJson cs) = some cs := by
  rw [show decodeComments (commentsToJson cs) =
    (cs.map commentToJson).mapM jsonToComment from rfl]
  induction cs with
  | nil => rfl
  | cons c0 cs' ih =>
    rw [show (c0 :: cs').map commentToJson =
      commentToJson c0 :: cs'.map commentToJson from rfl]
    rw [List.mapM_cons, jsonToComment_enc c0, ih]
    rfl

/-- **C7**: for every list of comments, printing it as a JSON array, wrapping
it in a ```json fence and running the response normalizer returns the parsed
JSON value of that array, and reading the fields back yields exactly the
original list (same length, field-for-field identical); for every response
whose fenced content, or whose raw trimmed content when no fence is present,
is malformed JSON, the normalizer falls back to the line-oriented scanner;
and on every input the normalizer returns a value (a parsed JSON value or a
scanned list), never an exception. -/
theorem claim_C7_roundtrip_fallback (cs : List ReviewComment) (response : String) :
    (parseReviewResponse (fenceWrap (printComments cs)) =
        ParseOutcome.jsonValue (commentsToJson cs) ∧
      decodeComments (commentsToJson cs) = some cs) ∧
    ((∀ content, extractFenced response = some content →
        jsonParse content = none →
        parseReviewResponse response = .scanned (parseTextResponse response)) ∧
      (extractFenced response = none →
        jsonParse (strTrim response) = none →
        parseReviewResponse response = .scanned (parseTextResponse response)) ∧
      ((∃ v, parseReviewResponse response = .jsonValue v) ∨
        (∃ comments, parseReviewResponse response = .scanned comments))) := by
  refine ⟨⟨?_, decodeComments_enc cs⟩, ?_, ?_, ?_⟩
  · unfold parseReviewResponse
    simp only [extractFenced_wrap (printComments cs) (nl_printComments cs),
      jsonParse_printComments cs]
  · intro content hext hjp
    unfold parseReviewResponse
    simp only [hext, hjp]
  · intro hext hjp
    unfold parseReviewResponse
    simp only [hext, hjp]
    split <;> rfl
  · cases hpo : parseReviewResponse response with
    | jsonValue v => exact Or.inl ⟨v, rfl⟩
    | scanned comments => exact Or.inr ⟨comments, rfl⟩

theorem claim_C7_witness :
    parseReviewResponse (fenceWrap (printComments
        [ReviewComment.mk "src/app.ts" 3 "missing await" "error" "bug"
          (some "add await")])) =
      ParseOutcome.jsonValue (commentsToJson
        [ReviewComment.mk "src/app.ts" 3 "missing await" "error" "bug"
          (some "add await")]) ∧
    decodeComments (commentsToJson
        [ReviewComment.mk "src/app.ts" 3 "missing await" "error" "bug"
          (some "add await")]) =
      some [ReviewComment.mk "src/app.ts" 3 "missing await" "error" "bug"
        (some "add await")] ∧
    parseReviewResponse "```json\nnot json\n```" =
      .scanned (parseTextResponse "```json\nnot json\n```") := by
  have h := claim_C7_roundtrip_fallback
    [ReviewComment.mk "src/app.ts" 3 "missing await" "error" "bug"
      (some "add await")]
    "```json\nnot json\n```"
  exact ⟨h.1.1, h.1.2, h.2.1 "not json" rfl rfl⟩

end AICodeReview
